import Mathlib

/-!
Verification of the shhh task-orchestration engine: a shallow embedding of
the module Registry with Kahn-style dependency resolution
(internal/module: Registry.ResolveDeps), the step Runner
(Runner.RunModule / Runner.RunModules) and the TUI Bridge
(internal/tui/wizard/bridge.go), together with proofs of the spec's
ordering, fail-fast, dry-run, check-skip, event-order and cancellation
properties.

Modelling conventions:
- Go closures on a Step (Check, Run, DryRun) are modelled by their
  observable outcome for one execution: a step carries whether each
  function is non-nil and the pure value the function returns.
- The engine's invocations of step functions and hooks are recorded in an
  explicit trace (the Action type), so "apply is never invoked" becomes a
  statement about trace membership.
- Go's context cancellation is modelled by the index of the send attempt
  from which cancellation is observed (CancelAt); Go ints are unbounded
  here (in-degrees are small non-negative counts, far from overflow).
-/

namespace Shhh

/-- One step of a module (internal/module setup types). The Go struct holds
function fields; we record for each optional function whether it is nil and
the value it would return on this run. -/
structure Step where
  name : String
  hasCheck : Bool
  check : Bool
  hasDryRun : Bool
  runErr : Option String
  deriving Repr, DecidableEq

/-- A module: id, dependency ids, ordered steps (Name/Description/Category
are presentation-only and not used by the engine). -/
structure Module where
  id : String
  dependencies : List String
  steps : List Step
  deriving Repr, DecidableEq

/-- The Registry: a map from id to module (modelled as an association list,
mirroring Go's map) plus the insertion-order slice. -/
structure Registry where
  modules : List (String × Module)
  order : List String
  deriving Repr, DecidableEq

/-- Association-list lookup, mirroring Go map indexing r.modules[id]. -/
def lookupMod : List (String × Module) → String → Option Module
  | [], _ => none
  | (k, m) :: rest, id => if k = id then some m else lookupMod rest id

/-- Registry.Get. -/
def Registry.get (r : Registry) (id : String) : Option Module :=
  lookupMod r.modules id

/-- Replace the binding for a key in the association list. -/
def replaceMod : List (String × Module) → String → Module → List (String × Module)
  | [], _, _ => []
  | (k, old) :: rest, id, m =>
    if k = id then (k, m) :: rest else (k, old) :: replaceMod rest id m

/-- Registry.Register: insert or replace by ID; the first registration
claims the insertion-order slot. -/
def Registry.register (r : Registry) (m : Module) : Registry :=
  if (r.get m.id).isSome then
    { modules := replaceMod r.modules m.id m, order := r.order }
  else
    { modules := r.modules ++ [(m.id, m)], order := r.order ++ [m.id] }

/-- The empty registry (NewRegistry). -/
def Registry.empty : Registry := { modules := [], order := [] }

/-- The well-formedness invariant the Go Registry maintains: the insertion
order slice has no duplicates, lists exactly the registered ids, every map
key appears in it, and each module is stored under its own ID (Register
keys the map by m.ID). -/
def Registry.WF (r : Registry) : Prop :=
  r.order.Nodup ∧ (∀ id ∈ r.order, (r.get id).isSome) ∧
    (∀ p ∈ r.modules, p.1 ∈ r.order) ∧
    ∀ p ∈ r.modules, p.2.id = p.1

instance (r : Registry) : Decidable r.WF := by
  unfold Registry.WF; infer_instance

/-- Dependencies of a registered module (nil map entry reads as none; the
Go code only consults dependencies of ids it has already found registered). -/
def depsOf (r : Registry) (id : String) : List String :=
  match r.get id with
  | some m => m.dependencies
  | none => []

/-- Outcome of running one module (ModuleResult). -/
structure ModuleResult where
  moduleID : String
  completed : Nat
  skipped : Nat
  total : Nat
  failedStep : String
  err : Option String
  deriving Repr, DecidableEq

/-- Observable engine actions during RunModule, in chronological order.
Each action carries the index of the step it concerns. -/
inductive Action where
  | preHook (stepName : String) (index total : Nat)
  | checkEval (stepName : String) (index : Nat) (value : Bool)
  | dryRunCall (stepName : String) (index : Nat)
  | applyCall (stepName : String) (index : Nat)
  | postHook (stepName : String) (index total : Nat) (skipped : Bool) (err : Option String)
  deriving Repr, DecidableEq

/-- The wrapped step error: fmt.Errorf("step %q in module %q failed: %w"). -/
def wrapStepErr (stepName modID e : String) : String :=
  "step \"" ++ stepName ++ "\" in module \"" ++ modID ++ "\" failed: " ++ e

/-- Per-step loop of Runner.RunModule. Mirrors the Go control flow:
pre-step hook; if Check is non-nil and true, count a skip and fire the
post-step hook with skipped=true; else in dry-run mode call DryRun (when
non-nil) and fire the hook with skipped=true without touching counters;
else call Run, and on error record the failing step, wrap the error and
stop; on success count a completion. -/
def runStepsAux (dry : Bool) (modID : String) (total : Nat) :
    List Step → Nat → ModuleResult → ModuleResult × List Action
  | [], _, acc => (acc, [])
  | s :: rest, i, acc =>
    let checkTr : List Action :=
      if s.hasCheck then [Action.checkEval s.name i s.check] else []
    if s.hasCheck && s.check then
      let next := runStepsAux dry modID total rest (i + 1)
        { acc with skipped := acc.skipped + 1 }
      (next.1, Action.preHook s.name i total :: checkTr ++
        Action.postHook s.name i total true none :: next.2)
    else if dry then
      let dryTr : List Action :=
        if s.hasDryRun then [Action.dryRunCall s.name i] else []
      let next := runStepsAux dry modID total rest (i + 1) acc
      (next.1, Action.preHook s.name i total :: checkTr ++ dryTr ++
        Action.postHook s.name i total true none :: next.2)
    else
      match s.runErr with
      | some e =>
        ({ acc with failedStep := s.name, err := some (wrapStepErr s.name modID e) },
          Action.preHook s.name i total :: checkTr ++
            [Action.applyCall s.name i, Action.postHook s.name i total false (some e)])
      | none =>
        let next := runStepsAux dry modID total rest (i + 1)
          { acc with completed := acc.completed + 1 }
        (next.1, Action.preHook s.name i total :: checkTr ++
          Action.applyCall s.name i :: Action.postHook s.name i total false none :: next.2)

/-- Runner.RunModule with its action trace. The runner's only state is the
dry-run flag fixed at construction. -/
def runModuleTr (dry : Bool) (mod : Module) : ModuleResult × List Action :=
  runStepsAux dry mod.id mod.steps.length mod.steps 0
    { moduleID := mod.id, completed := 0, skipped := 0,
      total := mod.steps.length, failedStep := "", err := none }

/-- Runner.RunModule, result only. -/
def runModule (dry : Bool) (mod : Module) : ModuleResult :=
  (runModuleTr dry mod).1

/-- The missing-dependency error: fmt.Errorf("module %q not found in registry"). -/
def missingMsg (id : String) : String :=
  "module \"" ++ id ++ "\" not found in registry"

/-- The cycle error of ResolveDeps. -/
def cycleMsg : String := "dependency cycle detected among modules"

/-- The for-loop over a dependency slice inside collect: fold a visitor
over the list, propagating the first error. -/
def foldCollect (g : List String → String → Except String (List String)) :
    List String → List String → Except String (List String)
  | needed, [] => Except.ok needed
  | needed, d :: ds =>
    match g needed d with
    | Except.error e => Except.error e
    | Except.ok n => foldCollect g n ds

/-- The recursive collect closure of Registry.ResolveDeps: depth-first
marking of a requested id and its transitive dependencies into the needed
set (a list here, so that registration checks stay decidable). The fuel
argument only bounds recursion depth (structurally, so the definition
computes); resolveDeps supplies more fuel than the registry has modules,
and the depth-exhaustion branch is proved unreachable (collect_spec
below). -/
def collectGo : Nat → Registry → List String → String → Except String (List String)
  | 0, _, _, _ => Except.error "resolution depth exceeded"
  | Nat.succ f, r, needed, id =>
    if id ∈ needed then Except.ok needed
    else
      match r.get id with
      | none => Except.error (missingMsg id)
      | some m => foldCollect (fun n d => collectGo f r n d) (needed ++ [id]) m.dependencies

/-- Collect over a list of requested ids (the loop over ids / over a
dependency slice). -/
def collectListGo (f : Nat) (r : Registry) (needed ds : List String) :
    Except String (List String) :=
  foldCollect (fun n d => collectGo f r n d) needed ds

theorem collectListGo_nil (f : Nat) (r : Registry) (needed : List String) :
    collectListGo f r needed [] = Except.ok needed := rfl

/-- collectListGo steps by one collect call. -/
theorem collectListGo_cons (f : Nat) (r : Registry) (needed : List String)
    (d : String) (ds : List String) :
    collectListGo f r needed (d :: ds) =
      (match collectGo f r needed d with
       | Except.error e => Except.error e
       | Except.ok n => collectListGo f r n ds) := rfl

/-- One unfolding of collect at positive fuel, phrased through
collectListGo. -/
theorem collectGo_succ (f : Nat) (r : Registry) (needed : List String) (id : String) :
    collectGo (f + 1) r needed id =
      (if id ∈ needed then Except.ok needed
       else
         match r.get id with
         | none => Except.error (missingMsg id)
         | some m => collectListGo f r (needed ++ [id]) m.dependencies) := rfl

/-- In-degree map scoped to the needed set, counting each occurrence of a
needed dependency (Go: for id in needed, for dep in deps, if needed[dep]
then inDegree[id]++). Carried as an Int, exactly like the Go int. -/
def initIndeg (r : Registry) (L : List String) (id : String) : Int :=
  (((depsOf r id).filter (fun d => decide (d ∈ L))).length : Int)

/-- The seed of the ready queue: zero in-degree needed nodes, scanned in
registry insertion order. -/
def seedQueue (r : Registry) (L : List String) : List String :=
  r.order.filter (fun id => decide (id ∈ L) && decide (initIndeg r L id = 0))

/-- One decrement pass of the Kahn loop: scan the insertion order; for each
needed id that depends on the popped node cur, decrement its in-degree once
(the Go inner loop breaks at the first matching dependency occurrence) and
append it to the queue if the in-degree reaches zero. -/
def decPass (r : Registry) (L : List String) (cur : String) :
    List String → (String → Int) → List String → ((String → Int) × List String)
  | [], indeg, queue => (indeg, queue)
  | id :: rest, indeg, queue =>
    if id ∈ L then
      if cur ∈ depsOf r id then
        let v := indeg id - 1
        let indeg' := fun x => if x = id then v else indeg x
        decPass r L cur rest indeg' (if v = 0 then queue ++ [id] else queue)
      else decPass r L cur rest indeg queue
    else decPass r L cur rest indeg queue

/-- The Kahn queue loop: pop the front, append it to the result, run the
decrement pass. The fuel equals the size of the needed set; the loop pops
each node at most once, so the fuel-exhaustion exit is proved to coincide
with the queue running empty (kahn invariants below). -/
def kahnLoop (r : Registry) (L : List String) :
    Nat → List String → (String → Int) → List String → List String
  | 0, _, _, sorted => sorted
  | Nat.succ _, [], _, sorted => sorted
  | Nat.succ f, cur :: rest, indeg, sorted =>
    let p := decPass r L cur r.order indeg rest
    kahnLoop r L f p.2 p.1 (sorted ++ [cur])

/-- Registry.ResolveDeps: collect the needed set, build in-degrees, seed
the queue in insertion order, run Kahn's loop, and fail with a cycle error
when the sorted output does not exhaust the needed set. -/
def Registry.resolveDeps (r : Registry) (ids : List String) : Except String (List String) :=
  match collectListGo (r.order.length + 1) r [] ids with
  | Except.error e => Except.error e
  | Except.ok L =>
    let sorted := kahnLoop r L L.length (seedQueue r L) (initIndeg r L) []
    if sorted.length = L.length then Except.ok sorted else Except.error cycleMsg

/-- The needed list computed by ResolveDeps's collect phase (empty on a
collect error); used to state the determinism properties. -/
def neededOf (r : Registry) (ids : List String) : List String :=
  match collectListGo (r.order.length + 1) r [] ids with
  | Except.error _ => []
  | Except.ok L => L

/-- Runner.RunModules: resolve, then run each module in order, stopping at
the first module whose result carries an error. Besides the Go return
values (results, error) the model returns the concatenated action trace,
so that "no step was executed" is statable. -/
def runModulesLoop (dry : Bool) (r : Registry) :
    List String → List ModuleResult → List Action →
      List ModuleResult × Option String × List Action
  | [], results, tr => (results, none, tr)
  | id :: rest, results, tr =>
    match r.get id with
    | none => (results, some (missingMsg id), tr)
    | some m =>
      let p := runModuleTr dry m
      if p.1.err.isSome then (results ++ [p.1], p.1.err, tr ++ p.2)
      else runModulesLoop dry r rest (results ++ [p.1]) (tr ++ p.2)

/-- Runner.RunModules (resolution errors come back wrapped with
"resolving dependencies: "). -/
def runModules (dry : Bool) (r : Registry) (ids : List String) :
    List ModuleResult × Option String × List Action :=
  match r.resolveDeps ids with
  | Except.error e => ([], some ("resolving dependencies: " ++ e), [])
  | Except.ok sorted => runModulesLoop dry r sorted [] []

/-- Lifecycle events of the Bridge (tea messages), with the payload fields
the engine determines. -/
inductive Event where
  | moduleStart (moduleID : String)
  | stepStart (moduleID stepName : String) (index total : Nat)
  | stepDone (moduleID stepName : String) (index total : Nat) (skipped : Bool)
  | stepError (moduleID stepName : String) (index total : Nat) (err : String)
  | allDone (results : List ModuleResult)
  | runError (err : String)
  deriving Repr, DecidableEq

/-- The event (if any) that the Bridge's installed hooks fire for a runner
action: the pre-step callback sends StepStart, the post-step callback sends
StepError when an error is present and StepDone otherwise. -/
def eventOfAction (modID : String) : Action → Option Event
  | Action.preHook n i t => some (Event.stepStart modID n i t)
  | Action.postHook n i t _ (some e) => some (Event.stepError modID n i t e)
  | Action.postHook n i t sk none => some (Event.stepDone modID n i t sk)
  | _ => none

/-- The moment cancellation is observed: every send attempt whose index is
at or past the cancel point fails (Bridge.send selects on ctx.Done). none
models a run that is never cancelled. -/
def CancelAt := Option Nat

/-- Whether the k-th send attempt delivers its event. -/
def deliveredAt (c : Option Nat) (k : Nat) : Bool :=
  match c with
  | none => true
  | some n => decide (k < n)

/-- A worker action in the cancellable Bridge model: a send attempt (with
whether it delivered) or an internal runner action. -/
inductive CAct where
  | sendAct (e : Event) (delivered : Bool)
  | runAct (a : Action)
  deriving Repr, DecidableEq

/-- Interleave the runner trace of one module with the send attempts its
hook events make, threading the send-attempt counter. The worker ignores
the send results of step events (bridge.go discards them). -/
def weave (modID : String) (c : Option Nat) :
    List Action → Nat → List CAct × Nat
  | [], k => ([], k)
  | a :: rest, k =>
    match eventOfAction modID a with
    | some e =>
      let next := weave modID c rest (k + 1)
      (CAct.sendAct e (deliveredAt c k) :: next.1, next.2)
    | none =>
      let next := weave modID c rest k
      (CAct.runAct a :: next.1, next.2)

/-- Bridge.run's module loop: send ModuleStart (returning early when the
send fails, the only send result the worker checks), run the module, and
after a failing module or after the last module attempt the AllDone send. -/
def cbridgeLoop (dry : Bool) (r : Registry) (c : Option Nat) :
    List String → List ModuleResult → Nat → List CAct
  | [], results, k => [CAct.sendAct (Event.allDone results) (deliveredAt c k)]
  | id :: rest, results, k =>
    match r.get id with
    | none => [CAct.sendAct (Event.runError ("module \"" ++ id ++ "\" not found")) (deliveredAt c k)]
    | some m =>
      let ok := deliveredAt c k
      if ok then
        let p := runModuleTr dry m
        let w := weave m.id c p.2 (k + 1)
        if p.1.err.isSome then
          CAct.sendAct (Event.moduleStart m.id) ok :: w.1 ++
            [CAct.sendAct (Event.allDone (results ++ [p.1])) (deliveredAt c w.2)]
        else
          CAct.sendAct (Event.moduleStart m.id) ok :: w.1 ++
            cbridgeLoop dry r c rest (results ++ [p.1]) w.2
      else [CAct.sendAct (Event.moduleStart m.id) ok]

/-- Bridge.run as a whole: resolve (sending RunError on failure), then the
module loop. The worker closes the channel when this list ends. -/
def cbridge (dry : Bool) (r : Registry) (ids : List String) (c : Option Nat) : List CAct :=
  match r.resolveDeps ids with
  | Except.error e => [CAct.sendAct (Event.runError e) (deliveredAt c 0)]
  | Except.ok sorted => cbridgeLoop dry r c sorted [] 0

/-- The events actually delivered on the channel, in order. -/
def delivered (tr : List CAct) : List Event :=
  tr.filterMap fun a =>
    match a with
    | CAct.sendAct e true => some e
    | _ => none

/-- The event stream of an uncancelled run. -/
def bridgeEvents (dry : Bool) (r : Registry) (ids : List String) : List Event :=
  delivered (cbridge dry r ids none)

/-- Bridge.NextMsg, k-th call: the k-th delivered event, or the
end-of-stream sentinel none once the channel is closed and drained. -/
def nextEventAt (dry : Bool) (r : Registry) (ids : List String) (c : Option Nat)
    (k : Nat) : Option Event :=
  (delivered (cbridge dry r ids c)).get? k

/-! ### Runner: trace characterization -/

/-- A step is disposed of as "already satisfied" when its Check is non-nil
and returns true. -/
def stepSkips (s : Step) : Bool := s.hasCheck && s.check

/-- The index of the step an action concerns. -/
def actIndex : Action → Nat
  | Action.preHook _ i _ => i
  | Action.checkEval _ i _ => i
  | Action.dryRunCall _ i => i
  | Action.applyCall _ i => i
  | Action.postHook _ i _ _ _ => i

/-- The action trace one step produces, as a function of its disposition. -/
def stepTrace (dry : Bool) (total : Nat) (s : Step) (i : Nat) : List Action :=
  Action.preHook s.name i total ::
    (if s.hasCheck then [Action.checkEval s.name i s.check] else []) ++
    (if s.hasCheck && s.check then [Action.postHook s.name i total true none]
     else if dry then
       (if s.hasDryRun then [Action.dryRunCall s.name i] else []) ++
         [Action.postHook s.name i total true none]
     else
       match s.runErr with
       | some e => [Action.applyCall s.name i, Action.postHook s.name i total false (some e)]
       | none => [Action.applyCall s.name i, Action.postHook s.name i total false none])

/-- Concatenated step traces starting at index i. -/
def tracesFrom (dry : Bool) (total : Nat) : List Step → Nat → List Action
  | [], _ => []
  | s :: rest, i => stepTrace dry total s i ++ tracesFrom dry total rest (i + 1)

theorem runStepsAux_dry (modID : String) (total : Nat) :
    ∀ (steps : List Step) (i : Nat) (acc : ModuleResult),
      runStepsAux true modID total steps i acc =
        ({ acc with skipped := acc.skipped + steps.countP stepSkips },
          tracesFrom true total steps i) := by
  intro steps
  induction steps with
  | nil => intro i acc; simp [runStepsAux, tracesFrom]
  | cons s rest ih =>
    intro i acc
    cases hc : s.hasCheck <;> cases hk : s.check
    all_goals
      simp [runStepsAux, hc, hk, ih, tracesFrom, stepTrace, List.countP_cons,
        stepSkips, Prod.mk.injEq, ModuleResult.mk.injEq]
    all_goals omega

theorem runStepsAux_nofail (modID : String) (total : Nat) :
    ∀ (steps : List Step) (i : Nat) (acc : ModuleResult),
      (∀ s ∈ steps, stepSkips s = false → s.runErr = none) →
      runStepsAux false modID total steps i acc =
        ({ acc with
            completed := acc.completed + steps.countP (fun s => !stepSkips s),
            skipped := acc.skipped + steps.countP stepSkips },
          tracesFrom false total steps i) := by
  intro steps
  induction steps with
  | nil => intro i acc _; simp [runStepsAux, tracesFrom]
  | cons s rest ih =>
    intro i acc hok
    have hr := fun x hx => hok x (List.mem_cons_of_mem _ hx)
    have ihr := fun (j : Nat) (a : ModuleResult) => ih j a hr
    cases hc : s.hasCheck <;> cases hk : s.check
    case false.false | false.true | true.false =>
      have hrun : s.runErr = none :=
        hok s (List.mem_cons_self _ _) (by simp [stepSkips, hc, hk])
      simp [runStepsAux, hc, hk, hrun, ihr, tracesFrom, stepTrace, List.countP_cons,
        stepSkips, Prod.mk.injEq, ModuleResult.mk.injEq]
      omega
    case true.true =>
      simp [runStepsAux, hc, hk, ihr, tracesFrom, stepTrace, List.countP_cons,
        stepSkips, Prod.mk.injEq, ModuleResult.mk.injEq]
      omega

theorem runStepsAux_fail (modID : String) (total : Nat) :
    ∀ (pre : List Step) (f : Step) (post : List Step) (e : String) (i : Nat)
      (acc : ModuleResult),
      (∀ s ∈ pre, stepSkips s = false → s.runErr = none) →
      stepSkips f = false → f.runErr = some e →
      runStepsAux false modID total (pre ++ f :: post) i acc =
        ({ acc with
            completed := acc.completed + pre.countP (fun s => !stepSkips s),
            skipped := acc.skipped + pre.countP stepSkips,
            failedStep := f.name,
            err := some (wrapStepErr f.name modID e) },
          tracesFrom false total pre i ++ stepTrace false total f (i + pre.length)) := by
  intro pre
  induction pre with
  | nil =>
    intro f post e i acc _ hskip herr
    have h : (f.hasCheck && f.check) = false := by simpa [stepSkips] using hskip
    simp [runStepsAux, h, herr, tracesFrom, stepTrace, Prod.mk.injEq,
      ModuleResult.mk.injEq]
  | cons s rest ih =>
    intro f post e i acc hok hskip herr
    have hr := fun x hx => hok x (List.mem_cons_of_mem _ hx)
    have ihr := fun (j : Nat) (a : ModuleResult) => ih f post e j a hr hskip herr
    cases hc : s.hasCheck <;> cases hk : s.check
    case false.false | false.true | true.false =>
      have hrun : s.runErr = none :=
        hok s (List.mem_cons_self _ _) (by simp [stepSkips, hc, hk])
      simp [runStepsAux, hc, hk, hrun, ihr, tracesFrom, stepTrace, List.countP_cons,
        stepSkips, Prod.mk.injEq, ModuleResult.mk.injEq, Nat.add_right_comm]
      constructor
      · omega
      · simp [Nat.add_comm, Nat.add_assoc, Nat.add_left_comm]
    case true.true =>
      simp [runStepsAux, hc, hk, ihr, tracesFrom, stepTrace, List.countP_cons,
        stepSkips, Prod.mk.injEq, ModuleResult.mk.injEq, Nat.add_right_comm]
      constructor
      · omega
      · simp [Nat.add_comm, Nat.add_assoc, Nat.add_left_comm]

/-- Every action in a step trace carries that step's index. -/
theorem actIndex_stepTrace (dry : Bool) (total : Nat) (s : Step) (i : Nat) :
    ∀ a ∈ stepTrace dry total s i, actIndex a = i := by
  intro a ha
  cases hc : s.hasCheck <;> cases hk : s.check <;> cases dry <;> cases hr : s.runErr <;>
    cases hd : s.hasDryRun <;>
    simp [stepTrace, hc, hk, hr, hd] at ha <;>
    rcases ha with rfl | rfl | rfl | rfl | rfl <;> rfl

/-- Membership in a trace concatenation is membership in the segment of one
of the steps, at the matching index. -/
theorem mem_tracesFrom (dry : Bool) (total : Nat) :
    ∀ (steps : List Step) (i : Nat) (a : Action),
      a ∈ tracesFrom dry total steps i ↔
        ∃ (j : Nat) (h : j < steps.length),
          a ∈ stepTrace dry total (steps.get ⟨j, h⟩) (i + j) := by
  intro steps
  induction steps with
  | nil => simp [tracesFrom]
  | cons s rest ih =>
    intro i a
    simp only [tracesFrom, List.mem_append, ih (i + 1) a, List.length_cons]
    constructor
    · rintro (h | ⟨j, hj, hm⟩)
      · exact ⟨0, by omega, by simpa using h⟩
      · exact ⟨j + 1, by omega, by
          simpa [List.get_cons_succ, Nat.add_assoc, Nat.add_comm 1 j] using hm⟩
    · rintro ⟨j, hj, hm⟩
      cases j with
      | zero => left; simpa using hm
      | succ j =>
        right
        exact ⟨j, by omega, by
          simpa [List.get_cons_succ, Nat.add_assoc, Nat.add_comm 1 j] using hm⟩

/-- An apply action in a step trace pins down the step's disposition: the
run branch (non-dry, check not satisfied) at exactly this index. -/
theorem applyCall_stepTrace (dry : Bool) (total : Nat) (s : Step) (i : Nat)
    (n : String) (j : Nat) :
    Action.applyCall n j ∈ stepTrace dry total s i →
      dry = false ∧ stepSkips s = false ∧ n = s.name ∧ j = i := by
  intro h
  cases hc : s.hasCheck <;> cases hk : s.check <;> cases dry <;> cases hr : s.runErr <;>
    simp_all [stepTrace, stepSkips]

/-- A DryRun action in a step trace pins down the dry branch. -/
theorem dryRunCall_stepTrace (dry : Bool) (total : Nat) (s : Step) (i : Nat)
    (n : String) (j : Nat) :
    Action.dryRunCall n j ∈ stepTrace dry total s i →
      dry = true ∧ stepSkips s = false ∧ s.hasDryRun = true ∧ n = s.name ∧ j = i := by
  intro h
  cases hc : s.hasCheck <;> cases hk : s.check <;> cases dry <;> cases hr : s.runErr <;>
    simp_all [stepTrace, stepSkips]

/-- In dry-run mode every post-step hook reports skipped=true, err=nil. -/
theorem postHook_stepTrace_dry (total : Nat) (s : Step) (i : Nat)
    (n : String) (j t : Nat) (sk : Bool) (e : Option String) :
    Action.postHook n j t sk e ∈ stepTrace true total s i → sk = true ∧ e = none := by
  intro h
  cases hc : s.hasCheck <;> cases hk : s.check <;> cases hr : s.runErr <;>
    simp_all [stepTrace]

/-- A satisfied check produces the skip hook invocation in the step trace. -/
theorem postHook_skip_stepTrace (dry : Bool) (total : Nat) (s : Step) (i : Nat)
    (hs : stepSkips s = true) :
    Action.postHook s.name i total true none ∈ stepTrace dry total s i := by
  have h := hs
  simp only [stepSkips, Bool.and_eq_true] at h
  simp [stepTrace, h.1, h.2]

/-- The dry branch invokes DryRun when it is non-nil. -/
theorem dryRunCall_mem_stepTrace (total : Nat) (s : Step) (i : Nat)
    (hs : stepSkips s = false) (hd : s.hasDryRun = true) :
    Action.dryRunCall s.name i ∈ stepTrace true total s i := by
  cases hc : s.hasCheck <;> cases hk : s.check <;>
    simp_all [stepTrace, stepSkips, hd]

/-- A step list either has no failing step, or splits at the first failing
step (one whose check does not discharge it and whose Run errors). -/
theorem firstFailSplit (steps : List Step) :
    (∀ s ∈ steps, stepSkips s = false → s.runErr = none) ∨
      ∃ pre f post e, steps = pre ++ f :: post ∧
        (∀ s ∈ pre, stepSkips s = false → s.runErr = none) ∧
        stepSkips f = false ∧ f.runErr = some e := by
  induction steps with
  | nil => left; simp
  | cons s rest ih =>
    by_cases hs : stepSkips s = false ∧ s.runErr.isSome
    · right
      rcases Option.isSome_iff_exists.mp hs.2 with ⟨e, he⟩
      exact ⟨[], s, rest, e, rfl, by simp, hs.1, he⟩
    · rcases ih with hok | ⟨pre, f, post, e, hsp, hpre, hf, he⟩
      · left
        intro x hx hsk
        rcases List.mem_cons.mp hx with rfl | hx
        · rcases Option.eq_none_or_eq_some x.runErr with h | ⟨v, h⟩
          · exact h
          · exact absurd ⟨hsk, by simp [h]⟩ hs
        · exact hok x hx hsk
      · right
        refine ⟨s :: pre, f, post, e, by simp [hsp], ?_, hf, he⟩
        intro x hx hsk
        rcases List.mem_cons.mp hx with rfl | hx
        · rcases Option.eq_none_or_eq_some x.runErr with h | ⟨v, h⟩
          · exact h
          · exact absurd ⟨hsk, by simp [h]⟩ hs
        · exact hpre x hx hsk

/-- Any apply invocation in a module run pins down: non-dry mode, the step
at that index exists, its check was not satisfied, and the name matches. -/
theorem applyCall_trace (dry : Bool) (mod : Module) (n : String) (j : Nat) :
    Action.applyCall n j ∈ (runModuleTr dry mod).2 →
      ∃ (h : j < mod.steps.length),
        dry = false ∧ stepSkips (mod.steps.get ⟨j, h⟩) = false ∧
          n = (mod.steps.get ⟨j, h⟩).name := by
  intro hmem
  cases dry
  case true =>
    rw [runModuleTr, runStepsAux_dry] at hmem
    rcases (mem_tracesFrom true _ _ _ _).mp hmem with ⟨j1, hj1, hseg⟩
    exact absurd (applyCall_stepTrace _ _ _ _ _ _ hseg).1 (by simp)
  case false =>
    rcases firstFailSplit mod.steps with hok | ⟨pre, f, post, e, hsp, hpre, hf, he⟩
    · rw [runModuleTr, runStepsAux_nofail _ _ _ _ _ hok] at hmem
      rcases (mem_tracesFrom false _ _ _ _).mp hmem with ⟨j1, hj1, hseg⟩
      rcases applyCall_stepTrace _ _ _ _ _ _ hseg with ⟨-, hsk, hn, hji⟩
      have : j = j1 := by omega
      subst this
      exact ⟨hj1, rfl, hsk, hn⟩
    · rw [runModuleTr, hsp, runStepsAux_fail _ _ _ _ _ _ _ _ hpre hf he] at hmem
      have hlen : mod.steps.length = pre.length + (post.length + 1) := by
        simp [hsp]
      rcases List.mem_append.mp hmem with hmem | hmem
      · rcases (mem_tracesFrom false _ _ _ _).mp hmem with ⟨j1, hj1, hseg⟩
        rcases applyCall_stepTrace _ _ _ _ _ _ hseg with ⟨-, hsk, hn, hji⟩
        have hej : j = j1 := by omega
        subst hej
        have hjlt : j < mod.steps.length := by omega
        have hget : mod.steps.get ⟨j, hjlt⟩ = pre.get ⟨j, hj1⟩ := by
          simp only [hsp, List.get_eq_getElem]
          exact List.getElem_append_left hj1
        exact ⟨hjlt, rfl, by rw [hget]; exact hsk, by rw [hget]; exact hn⟩
      · rcases applyCall_stepTrace _ _ _ _ _ _ hmem with ⟨-, hsk, hn, hji⟩
        have hej : j = pre.length := by omega
        have hjlt : j < mod.steps.length := by omega
        have hget : mod.steps.get ⟨j, hjlt⟩ = f := by
          simp only [hsp, List.get_eq_getElem]
          rw [List.getElem_append_right (by omega)]
          simp [hej]
        exact ⟨hjlt, rfl, by rw [hget]; exact hsk, by rw [hget]; exact hn⟩

/-- Any DryRun invocation in a module run pins down: dry mode, step exists,
check unsatisfied, DryRun non-nil, name matches. -/
theorem dryRunCall_trace (dry : Bool) (mod : Module) (n : String) (j : Nat) :
    Action.dryRunCall n j ∈ (runModuleTr dry mod).2 →
      ∃ (h : j < mod.steps.length),
        dry = true ∧ stepSkips (mod.steps.get ⟨j, h⟩) = false ∧
          (mod.steps.get ⟨j, h⟩).hasDryRun = true ∧ n = (mod.steps.get ⟨j, h⟩).name := by
  intro hmem
  cases dry
  case false =>
    rcases firstFailSplit mod.steps with hok | ⟨pre, f, post, e, hsp, hpre, hf, he⟩
    · rw [runModuleTr, runStepsAux_nofail _ _ _ _ _ hok] at hmem
      rcases (mem_tracesFrom false _ _ _ _).mp hmem with ⟨j1, hj1, hseg⟩
      exact absurd (dryRunCall_stepTrace _ _ _ _ _ _ hseg).1 (by simp)
    · rw [runModuleTr, hsp, runStepsAux_fail _ _ _ _ _ _ _ _ hpre hf he] at hmem
      rcases List.mem_append.mp hmem with hmem | hmem
      · rcases (mem_tracesFrom false _ _ _ _).mp hmem with ⟨j1, hj1, hseg⟩
        exact absurd (dryRunCall_stepTrace _ _ _ _ _ _ hseg).1 (by simp)
      · exact absurd (dryRunCall_stepTrace _ _ _ _ _ _ hmem).1 (by simp)
  case true =>
    rw [runModuleTr, runStepsAux_dry] at hmem
    rcases (mem_tracesFrom true _ _ _ _).mp hmem with ⟨j1, hj1, hseg⟩
    rcases dryRunCall_stepTrace _ _ _ _ _ _ hseg with ⟨-, hsk, hd, hn, hji⟩
    have : j = j1 := by omega
    subst this
    exact ⟨hj1, rfl, hsk, hd, hn⟩

/-- Index transport: a position strictly inside the non-failing head of a
split step list. -/
theorem get_split_pre (mod : Module) (pre : List Step) (f : Step) (post : List Step)
    (hsp : mod.steps = pre ++ f :: post) (j : Nat) (hj : j < pre.length)
    (hlt : j < mod.steps.length) : mod.steps.get ⟨j, hlt⟩ = pre.get ⟨j, hj⟩ := by
  simp only [hsp, List.get_eq_getElem]
  exact List.getElem_append_left hj

/-- Index transport: the failing position of a split step list. -/
theorem get_split_mid (mod : Module) (pre : List Step) (f : Step) (post : List Step)
    (hsp : mod.steps = pre ++ f :: post)
    (hlt : pre.length < mod.steps.length) : mod.steps.get ⟨pre.length, hlt⟩ = f := by
  simp only [hsp, List.get_eq_getElem]
  rw [List.getElem_append_right (by omega)]
  simp

/-- A dry-run fixture: one step whose check is not satisfied. -/
def cexDryStep : Step :=
  { name := "s", hasCheck := true, check := false, hasDryRun := true, runErr := none }

/-- A one-step module for the dry-run counting counterexample. -/
def cexDryMod : Module := { id := "m", dependencies := [], steps := [cexDryStep] }

/-- C4 counterexample: in dry-run mode a step whose check is not satisfied
is handed to the post-step hook as skipped=true (and its DryRun is
invoked), but the returned ModuleResult's skipped counter does NOT include
it: the Go dry-run branch never increments result.Skipped. The claim's
"the ModuleResult's skipped counter includes it" is false on this input. -/
theorem dryRun_skip_count_cex :
    stepSkips cexDryStep = false ∧
    Action.postHook "s" 0 1 true none ∈ (runModuleTr true cexDryMod).2 ∧
    Action.dryRunCall "s" 0 ∈ (runModuleTr true cexDryMod).2 ∧
    (runModule true cexDryMod).skipped = 0 := by decide

/-- C4 (amended): in dry-run mode apply is never invoked regardless of
checkSatisfied; an unsatisfied step with a non-nil DryRun has DryRun
invoked; every post-step hook fires with skipped=true and nil error; the
result carries no failed step, a nil error, zero completions — and a
skipped counter that counts only the check-satisfied steps (dry-run
described steps are reported skipped to the hook but not counted). -/
theorem dryRun_invariant (mod : Module) :
    (∀ n j, Action.applyCall n j ∉ (runModuleTr true mod).2) ∧
    (runModule true mod).err = none ∧
    (runModule true mod).failedStep = "" ∧
    (runModule true mod).completed = 0 ∧
    (runModule true mod).skipped = mod.steps.countP stepSkips ∧
    (∀ j (h : j < mod.steps.length),
        stepSkips (mod.steps.get ⟨j, h⟩) = false →
        (mod.steps.get ⟨j, h⟩).hasDryRun = true →
        Action.dryRunCall (mod.steps.get ⟨j, h⟩).name j ∈ (runModuleTr true mod).2) ∧
    (∀ n j t sk e, Action.postHook n j t sk e ∈ (runModuleTr true mod).2 →
        sk = true ∧ e = none) := by
  have hchar := runStepsAux_dry mod.id mod.steps.length mod.steps 0
    { moduleID := mod.id, completed := 0, skipped := 0, total := mod.steps.length,
      failedStep := "", err := none }
  have hres : runModule true mod =
      { moduleID := mod.id, completed := 0, skipped := 0 + mod.steps.countP stepSkips,
        total := mod.steps.length, failedStep := "", err := none } := by
    rw [runModule, runModuleTr, hchar]
  have htr : (runModuleTr true mod).2 = tracesFrom true mod.steps.length mod.steps 0 := by
    rw [runModuleTr, hchar]
  refine ⟨?_, ?_, ?_, ?_, ?_, ?_, ?_⟩
  · intro n j hmem
    rcases applyCall_trace true mod n j hmem with ⟨h1, hfalse, -⟩
    exact absurd hfalse (by simp)
  · simp [hres]
  · simp [hres]
  · simp [hres]
  · simp [hres]
  · intro j h hsk hd
    rw [htr]
    exact (mem_tracesFrom true _ _ _ _).mpr
      ⟨j, h, by simpa using dryRunCall_mem_stepTrace mod.steps.length _ j hsk hd⟩
  · intro n j t sk e hmem
    rw [htr] at hmem
    rcases (mem_tracesFrom true _ _ _ _).mp hmem with ⟨j1, hj1, hseg⟩
    exact postHook_stepTrace_dry _ _ _ _ _ _ _ _ hseg

/-- Witness instantiating the dry-run invariant on a concrete module. -/
theorem dryRun_invariant_witness :
    (∀ n j, Action.applyCall n j ∉ (runModuleTr true modFF).2) ∧
    (runModule true modFF).err = none :=
  ⟨(dryRun_invariant modFF).1, (dryRun_invariant modFF).2.1⟩

/-- C5: RunModule stops at the first failing step: the result names it,
carries the wrapped error, counts only the steps before it, and every
recorded action concerns a step index at or before the failing one. -/
theorem failFast (mod : Module) (pre : List Step) (f : Step) (post : List Step)
    (e : String) (hsp : mod.steps = pre ++ f :: post)
    (hpre : ∀ s ∈ pre, stepSkips s = false → s.runErr = none)
    (hf : stepSkips f = false) (he : f.runErr = some e) :
    (runModule false mod).failedStep = f.name ∧
    (runModule false mod).err = some (wrapStepErr f.name mod.id e) ∧
    (runModule false mod).completed = pre.countP (fun s => !stepSkips s) ∧
    (runModule false mod).skipped = pre.countP stepSkips ∧
    (∀ a ∈ (runModuleTr false mod).2, actIndex a ≤ pre.length) := by
  have hchar := runStepsAux_fail mod.id ((pre ++ f :: post).length) pre f post e 0
    { moduleID := mod.id, completed := 0, skipped := 0,
      total := (pre ++ f :: post).length, failedStep := "", err := none } hpre hf he
  have key : runModuleTr false mod =
      ({ moduleID := mod.id, completed := 0 + pre.countP (fun s => !stepSkips s),
         skipped := 0 + pre.countP stepSkips, total := (pre ++ f :: post).length,
         failedStep := f.name, err := some (wrapStepErr f.name mod.id e) },
        tracesFrom false (pre ++ f :: post).length pre 0 ++
          stepTrace false (pre ++ f :: post).length f (0 + pre.length)) := by
    rw [runModuleTr, hsp]; exact hchar
  refine ⟨?_, ?_, ?_, ?_, ?_⟩
  · simp [runModule, key]
  · simp [runModule, key]
  · simp [runModule, key]
  · simp [runModule, key]
  · intro a ha
    rw [key] at ha
    rcases List.mem_append.mp ha with ha | ha
    · rcases (mem_tracesFrom false _ _ _ _).mp ha with ⟨j1, hj1, hseg⟩
      have := actIndex_stepTrace _ _ _ _ a hseg
      omega
    · have := actIndex_stepTrace _ _ _ _ a ha
      omega

/-- Fixture: a step that runs successfully. -/
def okS : Step :=
  { name := "ok", hasCheck := true, check := false, hasDryRun := false, runErr := none }

/-- Fixture: a step whose Run fails with "boom". -/
def failS : Step :=
  { name := "fail", hasCheck := true, check := false, hasDryRun := false,
    runErr := some "boom" }

/-- Fixture: a step after the failure that must never run. -/
def okS2 : Step :=
  { name := "ok2", hasCheck := true, check := false, hasDryRun := false, runErr := none }

/-- The spec's fail-fast module [ok, fail, ok2]. -/
def modFF : Module := { id := "m", dependencies := [], steps := [okS, failS, okS2] }

/-- Witness for the fail-fast theorem on the spec's own example. -/
theorem failFast_witness :
    modFF.steps = [okS] ++ failS :: [okS2] ∧ stepSkips failS = false ∧
      ((runModule false modFF).failedStep = failS.name ∧
        (runModule false modFF).err = some (wrapStepErr failS.name modFF.id "boom") ∧
        (runModule false modFF).completed = List.countP (fun s => !stepSkips s) [okS] ∧
        (runModule false modFF).skipped = List.countP stepSkips [okS] ∧
        ∀ a ∈ (runModuleTr false modFF).2, actIndex a ≤ List.length [okS]) :=
  ⟨rfl, by decide,
    failFast modFF [okS] failS [okS2] "boom" rfl (by decide) (by decide) rfl⟩

/-- C6: a step whose check is satisfied never has its apply (or DryRun)
invoked; when the engine reaches it, the post-step hook fires with
skipped=true and nil error; and when no step fails, the skipped counter
counts exactly the check-satisfied steps. -/
theorem checkSkip (dry : Bool) (mod : Module) (j : Nat) (h : j < mod.steps.length)
    (hskip : stepSkips (mod.steps.get ⟨j, h⟩) = true) :
    (∀ n, Action.applyCall n j ∉ (runModuleTr dry mod).2) ∧
    (∀ n, Action.dryRunCall n j ∉ (runModuleTr dry mod).2) ∧
    (Action.preHook (mod.steps.get ⟨j, h⟩).name j mod.steps.length ∈ (runModuleTr dry mod).2 →
      Action.postHook (mod.steps.get ⟨j, h⟩).name j mod.steps.length true none ∈
        (runModuleTr dry mod).2) ∧
    ((∀ s ∈ mod.steps, stepSkips s = false → dry = false → s.runErr = none) →
      (runModule dry mod).skipped = mod.steps.countP stepSkips) := by
  refine ⟨?_, ?_, ?_, ?_⟩
  · intro n hmem
    rcases applyCall_trace dry mod n j hmem with ⟨h1, -, hsk, -⟩
    exact absurd hsk (by rw [show mod.steps.get ⟨j, h1⟩ = mod.steps.get ⟨j, h⟩ from rfl, hskip]; simp)
  · intro n hmem
    rcases dryRunCall_trace dry mod n j hmem with ⟨h1, -, hsk, -⟩
    exact absurd hsk (by rw [show mod.steps.get ⟨j, h1⟩ = mod.steps.get ⟨j, h⟩ from rfl, hskip]; simp)
  · intro hpreMem
    cases dry
    case false =>
      rcases firstFailSplit mod.steps with hok | ⟨pre, f, post, e, hsp, hpre, hf, he⟩
      · have htr : (runModuleTr false mod).2 =
            tracesFrom false mod.steps.length mod.steps 0 := by
          rw [runModuleTr, runStepsAux_nofail _ _ _ _ _ hok]
        rw [htr]
        exact (mem_tracesFrom false _ _ _ _).mpr
          ⟨j, h, by simpa using postHook_skip_stepTrace false mod.steps.length _ j hskip⟩
      · have hchar := runStepsAux_fail mod.id ((pre ++ f :: post).length) pre f post e 0
          { moduleID := mod.id, completed := 0, skipped := 0,
            total := (pre ++ f :: post).length, failedStep := "", err := none } hpre hf he
        have htr : (runModuleTr false mod).2 =
            tracesFrom false (pre ++ f :: post).length pre 0 ++
              stepTrace false (pre ++ f :: post).length f (0 + pre.length) := by
          rw [runModuleTr, hsp, hchar]
        rw [htr] at hpreMem
        have hjpre : j < pre.length := by
          have hne : j ≠ pre.length := by
            intro hej
            have hmid : mod.steps.get ⟨j, h⟩ = f := by
              subst hej; exact get_split_mid mod pre f post hsp h
            rw [hmid] at hskip
            rw [hskip] at hf
            exact absurd hf (by simp)
          rcases List.mem_append.mp hpreMem with hm | hm
          · rcases (mem_tracesFrom false _ _ _ _).mp hm with ⟨j1, hj1, hseg⟩
            have := actIndex_stepTrace _ _ _ _ _ hseg
            simp [actIndex] at this
            omega
          · have := actIndex_stepTrace _ _ _ _ _ hm
            simp [actIndex] at this
            omega
        have hlen2 : (pre ++ f :: post).length = mod.steps.length := by rw [hsp]
        have hfin : Action.postHook (mod.steps.get ⟨j, h⟩).name j
            ((pre ++ f :: post).length) true none ∈ (runModuleTr false mod).2 := by
          rw [htr]
          refine List.mem_append.mpr (Or.inl ?_)
          refine (mem_tracesFrom false _ _ _ _).mpr ⟨j, hjpre, ?_⟩
          have hget := get_split_pre mod pre f post hsp j hjpre h
          rw [← hget]
          simpa using postHook_skip_stepTrace false (pre ++ f :: post).length _ j hskip
        exact (congrArg (fun t => Action.postHook (mod.steps.get ⟨j, h⟩).name j t true none ∈
          (runModuleTr false mod).2) hlen2).mp hfin
    case true =>
      have htr : (runModuleTr true mod).2 =
          tracesFrom true mod.steps.length mod.steps 0 := by
        rw [runModuleTr, runStepsAux_dry]
      rw [htr]
      exact (mem_tracesFrom true _ _ _ _).mpr
        ⟨j, h, by simpa using postHook_skip_stepTrace true mod.steps.length _ j hskip⟩
  · intro hok
    cases dry
    case false =>
      have hchar := runStepsAux_nofail mod.id mod.steps.length mod.steps 0
        { moduleID := mod.id, completed := 0, skipped := 0, total := mod.steps.length,
          failedStep := "", err := none } (fun s hs hsk => hok s hs hsk rfl)
      rw [runModule, runModuleTr, hchar]
      simp
    case true =>
      have hchar := runStepsAux_dry mod.id mod.steps.length mod.steps 0
        { moduleID := mod.id, completed := 0, skipped := 0, total := mod.steps.length,
          failedStep := "", err := none }
      rw [runModule, runModuleTr, hchar]
      simp

/-- Fixture: a pre-satisfied step whose Run would fail if it were ever
invoked. -/
def skipS : Step :=
  { name := "skip", hasCheck := true, check := true, hasDryRun := false,
    runErr := some "must never run" }

/-- Module for the check-skip witness. -/
def modCS : Module := { id := "c", dependencies := [], steps := [skipS, okS] }

/-- Witness for the check-skip theorem. -/
theorem checkSkip_witness :
    (0 < modCS.steps.length ∧ stepSkips skipS = true) ∧
    (∀ n, Action.applyCall n 0 ∉ (runModuleTr false modCS).2) ∧
    (runModule false modCS).skipped = 1 := by
  have h := checkSkip false modCS 0 (by decide) (by decide)
  refine ⟨by decide, h.1, ?_⟩
  rw [h.2.2.2 (by decide)]
  decide

/-! ### Registry: the collect phase -/

/-- A successful association-list lookup comes from an entry. -/
theorem lookupMod_mem : ∀ (l : List (String × Module)) (id : String) (m : Module),
    lookupMod l id = some m → (id, m) ∈ l := by
  intro l
  induction l with
  | nil => intro id m h; simp [lookupMod] at h
  | cons p rest ih =>
    intro id m h
    rcases p with ⟨k, v⟩
    by_cases hk : k = id
    · subst hk
      simp only [lookupMod, if_pos rfl] at h
      injection h with h
      subst h
      exact List.mem_cons_self _ _
    · simp only [lookupMod, if_neg hk] at h
      exact List.mem_cons_of_mem _ (ih id m h)

/-- Under well-formedness, a registered id is in the insertion order. -/
theorem registered_mem_order (r : Registry) (hwf : r.WF) (id : String)
    (h : (r.get id).isSome) : id ∈ r.order := by
  rcases Option.isSome_iff_exists.mp h with ⟨m, hm⟩
  exact hwf.2.2.1 (id, m) (lookupMod_mem r.modules id m hm)

/-- A duplicate-free list of registered ids is no longer than the order
slice. -/
theorem registered_nodup_length_le (r : Registry) (hwf : r.WF) (l : List String)
    (hnd : l.Nodup) (hreg : ∀ x ∈ l, (r.get x).isSome) :
    l.length ≤ r.order.length := by
  have hsub : l.toFinset ⊆ r.order.toFinset := by
    intro x hx
    rw [List.mem_toFinset] at hx ⊢
    exact registered_mem_order r hwf x (hreg x hx)
  calc l.length = l.toFinset.card := (List.toFinset_card_of_nodup hnd).symm
    _ ≤ r.order.toFinset.card := Finset.card_le_card hsub
    _ ≤ r.order.length := List.toFinset_card_le r.order

/-- Transitive reachability: the requested ids plus everything reachable
from them through Dependencies edges of registered modules. -/
inductive Reaches (r : Registry) (roots : List String) : String → Prop
  | root {id : String} : id ∈ roots → Reaches r roots id
  | dep {x : String} {m : Module} {d : String} :
      Reaches r roots x → r.get x = some m → d ∈ m.dependencies →
      Reaches r roots d

theorem Reaches.mono {r : Registry} {roots roots2 : List String} {x : String}
    (hsub : ∀ y ∈ roots, y ∈ roots2) (h : Reaches r roots x) :
    Reaches r roots2 x := by
  induction h with
  | root hm => exact Reaches.root (hsub _ hm)
  | dep _ hget hd ih => exact Reaches.dep ih hget hd

theorem Reaches.trans_roots {r : Registry} {roots roots2 : List String} {x : String}
    (hroots : ∀ y ∈ roots, Reaches r roots2 y) (h : Reaches r roots x) :
    Reaches r roots2 x := by
  induction h with
  | root hm => exact hroots _ hm
  | dep _ hget hd ih => exact Reaches.dep ih hget hd

/-- The postcondition of a successful collect call relative to the needed
set it started from. -/
def CollectOut (r : Registry) (needed out : List String) : Prop :=
  (∃ fresh, out = needed ++ fresh) ∧ out.Nodup ∧
  (∀ x ∈ out, (r.get x).isSome) ∧
  (∀ x ∈ out, x ∉ needed → ∀ d ∈ depsOf r x, d ∈ out)

theorem CollectOut.mem_of_mem {r : Registry} {needed out : List String}
    (h : CollectOut r needed out) : ∀ x ∈ needed, x ∈ out := by
  rcases h.1 with ⟨fresh, rfl⟩
  intro x hx
  exact List.mem_append_left _ hx

theorem CollectOut.trans {r : Registry} {n1 n2 n3 : List String}
    (h12 : CollectOut r n1 n2) (h23 : CollectOut r n2 n3) :
    CollectOut r n1 n3 := by
  rcases h12.1 with ⟨f1, hf1⟩
  rcases h23.1 with ⟨f2, hf2⟩
  refine ⟨⟨f1 ++ f2, by rw [hf2, hf1, List.append_assoc]⟩, h23.2.1, h23.2.2.1, ?_⟩
  intro x hx hnx d hd
  by_cases hx2 : x ∈ n2
  · exact (h23.mem_of_mem) d (h12.2.2.2 x hx2 hnx d hd)
  · exact h23.2.2.2 x hx hx2 d hd

/-- Full specification of the collect recursion: under the fuel invariant,
depth exhaustion is unreachable, success extends the needed list with
exactly the freshly reachable ids (duplicate-free, all registered,
dependency-closed off the initial needed set), and failure names a
reachable unregistered id. -/
theorem collect_spec (r : Registry) (hwf : r.WF) :
    ∀ f : Nat,
      (∀ needed id, needed.Nodup → (∀ x ∈ needed, (r.get x).isSome) →
        r.order.length < f + needed.length →
        (match collectGo f r needed id with
         | Except.ok out => CollectOut r needed out ∧ id ∈ out ∧
             (∀ x ∈ out, x ∉ needed → Reaches r [id] x)
         | Except.error e =>
             ∃ x, e = missingMsg x ∧ r.get x = none ∧ Reaches r [id] x)) ∧
      (∀ needed ds, needed.Nodup → (∀ x ∈ needed, (r.get x).isSome) →
        r.order.length < f + needed.length →
        (match collectListGo f r needed ds with
         | Except.ok out => CollectOut r needed out ∧ (∀ d ∈ ds, d ∈ out) ∧
             (∀ x ∈ out, x ∉ needed → Reaches r ds x)
         | Except.error e =>
             ∃ x, e = missingMsg x ∧ r.get x = none ∧ Reaches r ds x)) := by
  intro f
  induction f with
  | zero =>
    constructor
    · intro needed id hnd hreg hfuel
      exact absurd (registered_nodup_length_le r hwf needed hnd hreg) (by omega)
    · intro needed ds hnd hreg hfuel
      exact absurd (registered_nodup_length_le r hwf needed hnd hreg) (by omega)
  | succ f ih =>
    have hP : ∀ needed id, needed.Nodup → (∀ x ∈ needed, (r.get x).isSome) →
        r.order.length < (f + 1) + needed.length →
        (match collectGo (f + 1) r needed id with
         | Except.ok out => CollectOut r needed out ∧ id ∈ out ∧
             (∀ x ∈ out, x ∉ needed → Reaches r [id] x)
         | Except.error e =>
             ∃ x, e = missingMsg x ∧ r.get x = none ∧ Reaches r [id] x) := by
      intro needed id hnd hreg hfuel
      by_cases hin : id ∈ needed
      · simp only [collectGo_succ, hin, if_pos]
        refine ⟨⟨⟨[], by simp⟩, hnd, hreg, fun x hx hnx => absurd hx hnx⟩, ?_,
          fun x hx hnx => absurd hx hnx⟩
        simp [hin]
      · rcases hget : r.get id with _ | m
        · simp only [collectGo_succ, hin, if_neg, hget]
          exact ⟨id, rfl, hget, Reaches.root (by simp)⟩
        · simp only [collectGo_succ, hin, if_neg, hget]
          have hnd2 : (needed ++ [id]).Nodup := by
            simp [List.nodup_append, hnd, hin]
          have hreg2 : ∀ x ∈ needed ++ [id], (r.get x).isSome := by
            intro x hx
            rcases List.mem_append.mp hx with hx | hx
            · exact hreg x hx
            · simp at hx; subst hx; simp [hget]
          have hfuel2 : r.order.length < f + (needed ++ [id]).length := by
            simp; omega
          have hq := ih.2 (needed ++ [id]) m.dependencies hnd2 hreg2 hfuel2
          rcases hres : collectListGo f r (needed ++ [id]) m.dependencies with e | out
          · rw [hres] at hq
            rcases hq with ⟨x, hx1, hx2, hx3⟩
            refine ⟨x, hx1, hx2, ?_⟩
            refine Reaches.trans_roots ?_ hx3
            intro y hy
            exact Reaches.dep (Reaches.root (by simp)) hget hy
          · rw [hres] at hq
            rcases hq with ⟨hco, hds, hreach⟩
            have hidout : id ∈ out := hco.mem_of_mem id (by simp)
            have hcoB : CollectOut r needed out := by
              rcases hco.1 with ⟨fresh, hfr⟩
              refine ⟨⟨id :: fresh, by rw [hfr, List.append_assoc]; rfl⟩,
                hco.2.1, hco.2.2.1, ?_⟩
              intro x hx hnx d hd
              by_cases hxid : x = id
              · subst hxid
                have : depsOf r x = m.dependencies := by simp [depsOf, hget]
                rw [this] at hd
                exact hds d hd
              · have hxn2 : x ∉ needed ++ [id] := by
                  simp [hnx, hxid]
                exact hco.2.2.2 x hx hxn2 d hd
            refine ⟨hcoB, hidout, ?_⟩
            intro x hx hnx
            by_cases hxid : x = id
            · subst hxid; exact Reaches.root (by simp)
            · have hxn2 : x ∉ needed ++ [id] := by simp [hnx, hxid]
              refine Reaches.trans_roots ?_ (hreach x hx hxn2)
              intro y hy
              exact Reaches.dep (Reaches.root (by simp)) hget hy
    refine ⟨hP, ?_⟩
    intro needed ds
    induction ds generalizing needed with
    | nil =>
      intro hnd hreg hfuel
      simp only [collectListGo_nil]
      exact ⟨⟨⟨[], by simp⟩, hnd, hreg, fun x hx hnx => absurd hx hnx⟩,
        by simp, fun x hx hnx => absurd hx hnx⟩
    | cons d ds ihds =>
      intro hnd hreg hfuel
      have hgo := hP needed d hnd hreg hfuel
      rcases hres : collectGo (f + 1) r needed d with e | n
      · rw [hres] at hgo
        simp only [collectListGo_cons, hres]
        rcases hgo with ⟨x, hx1, hx2, hx3⟩
        exact ⟨x, hx1, hx2, Reaches.mono (by simp) hx3⟩
      · rw [hres] at hgo
        simp only [collectListGo_cons, hres]
        rcases hgo with ⟨hco, hdin, hreach⟩
        have hnd2 := hco.2.1
        have hreg2 := hco.2.2.1
        have hfuel2 : r.order.length < (f + 1) + n.length := by
          rcases hco.1 with ⟨fresh, hfr⟩
          have : needed.length ≤ n.length := by simp [hfr]
          omega
        have hq := ihds n hnd2 hreg2 hfuel2
        rcases hres2 : collectListGo (f + 1) r n ds with e2 | out
        · rw [hres2] at hq
          rcases hq with ⟨x, hx1, hx2, hx3⟩
          exact ⟨x, hx1, hx2, Reaches.mono (fun y hy => List.mem_cons_of_mem _ hy) hx3⟩
        · rw [hres2] at hq
          rcases hq with ⟨hco2, hds2, hreach2⟩
          refine ⟨hco.trans hco2, ?_, ?_⟩
          · intro x hx
            rcases List.mem_cons.mp hx with rfl | hx
            · exact hco2.mem_of_mem x hdin
            · exact hds2 x hx
          · intro x hx hnx
            by_cases hxn : x ∈ n
            · refine Reaches.mono ?_ (hreach x hxn hnx)
              intro y hy
              simp only [List.mem_singleton] at hy
              subst hy
              exact List.mem_cons_self _ _
            · exact Reaches.mono (fun y hy => List.mem_cons_of_mem _ hy)
                (hreach2 x hx hxn)

/-- Top-level collect (as invoked by ResolveDeps with needed = empty):
success produces exactly the reachable set, duplicate-free, registered and
dependency-closed; failure names a reachable unregistered id. -/
theorem neededTop_spec (r : Registry) (hwf : r.WF) (ids : List String) :
    (match collectListGo (r.order.length + 1) r [] ids with
     | Except.ok L => L.Nodup ∧ (∀ x ∈ L, (r.get x).isSome) ∧
         (∀ x, x ∈ L ↔ Reaches r ids x) ∧
         (∀ x ∈ L, ∀ d ∈ depsOf r x, d ∈ L) ∧ (∀ d ∈ ids, d ∈ L)
     | Except.error e => ∃ x, e = missingMsg x ∧ r.get x = none ∧ Reaches r ids x) := by
  have hq := (collect_spec r hwf (r.order.length + 1)).2 [] ids (by simp) (by simp)
    (by simp)
  rcases hres : collectListGo (r.order.length + 1) r [] ids with e | L
  · rw [hres] at hq; exact hq
  · rw [hres] at hq
    rcases hq with ⟨hco, hds, hreach⟩
    have hmem : ∀ x, x ∈ L ↔ Reaches r ids x := by
      intro x
      constructor
      · intro hx; exact hreach x hx (by simp)
      · intro hx
        induction hx with
        | root hm => exact hds _ hm
        | dep hrx hget hd ihx =>
          exact hco.2.2.2 _ ihx (by simp) _ (by simp [depsOf, hget, hd])
    exact ⟨hco.2.1, hco.2.2.1, hmem, fun x hx => hco.2.2.2 x hx (by simp), hds⟩

/-! ### Registry: the Kahn loop -/

/-- The number of decrements a node has received so far: the popped nodes
(recorded in sorted) that occur among its dependencies, each counted once
(the Go inner loop breaks at the first match). -/
def countDecs (r : Registry) (sorted : List String) (id : String) : Int :=
  ((sorted.filter (fun c => decide (c ∈ depsOf r id))).length : Int)

/-- The in-degree function after processing one popped node over a scan
list. -/
def decIndeg (r : Registry) (L : List String) (cur : String) (ord : List String)
    (indeg : String → Int) : String → Int :=
  fun x => if x ∈ ord ∧ x ∈ L ∧ cur ∈ depsOf r x then indeg x - 1 else indeg x

/-- The nodes a decrement pass appends to the ready queue, in scan order:
the needed dependents of the popped node whose in-degree reaches zero. -/
def newBatch (r : Registry) (L : List String) (cur : String) (ord : List String)
    (indeg : String → Int) : List String :=
  ord.filter (fun x => decide (x ∈ L) && decide (cur ∈ depsOf r x) &&
    decide (indeg x = 1))

/-- Closed form of the decrement pass over a duplicate-free scan list. -/
theorem decPass_eq (r : Registry) (L : List String) (cur : String) :
    ∀ (ord : List String) (indeg : String → Int) (queue : List String),
      ord.Nodup →
      decPass r L cur ord indeg queue =
        (decIndeg r L cur ord indeg, queue ++ newBatch r L cur ord indeg) := by
  intro ord
  induction ord with
  | nil =>
    intro indeg queue _
    refine Prod.ext ?_ ?_
    · funext x; simp [decPass, decIndeg]
    · simp [decPass, newBatch]
  | cons id rest ih =>
    intro indeg queue hnd
    have hidr : id ∉ rest := (List.nodup_cons.mp hnd).1
    have hndr : rest.Nodup := (List.nodup_cons.mp hnd).2
    by_cases hidL : id ∈ L
    · by_cases hcd : cur ∈ depsOf r id
      · have hstep : decPass r L cur (id :: rest) indeg queue =
            decPass r L cur rest (fun x => if x = id then indeg id - 1 else indeg x)
              (if indeg id - 1 = 0 then queue ++ [id] else queue) := by
          simp [decPass, hidL, hcd]
        rw [hstep, ih _ _ hndr]
        have hfun : decIndeg r L cur rest (fun x => if x = id then indeg id - 1 else indeg x) =
            decIndeg r L cur (id :: rest) indeg := by
          funext x
          by_cases hx : x = id
          · subst hx
            simp [decIndeg, hidr, hidL, hcd]
          · simp [decIndeg, hx]
        have hq : (if indeg id - 1 = 0 then queue ++ [id] else queue) ++
            newBatch r L cur rest (fun x => if x = id then indeg id - 1 else indeg x) =
            queue ++ newBatch r L cur (id :: rest) indeg := by
          have hfb : newBatch r L cur rest (fun x => if x = id then indeg id - 1 else indeg x) =
              newBatch r L cur rest indeg := by
            refine List.filter_congr ?_
            intro x hx
            have hxne : x ≠ id := fun h => hidr (h ▸ hx)
            simp [hxne]
          rw [hfb]
          by_cases h1 : indeg id = 1
          · have : indeg id - 1 = 0 := by omega
            simp [newBatch, this, hidL, hcd, h1, List.filter_cons]
          · have : ¬(indeg id - 1 = 0) := by omega
            simp [newBatch, this, hidL, hcd, h1, List.filter_cons]
        rw [hfun, hq]
      · have hstep : decPass r L cur (id :: rest) indeg queue =
            decPass r L cur rest indeg queue := by
          simp [decPass, hidL, hcd]
        rw [hstep, ih _ _ hndr]
        have hfun : decIndeg r L cur rest indeg = decIndeg r L cur (id :: rest) indeg := by
          funext x
          by_cases hx : x = id
          · subst hx; simp [decIndeg, hcd]
          · simp [decIndeg, hx]
        have hq : newBatch r L cur rest indeg = newBatch r L cur (id :: rest) indeg := by
          simp [newBatch, List.filter_cons, hcd]
        rw [hfun, hq]
    · have hstep : decPass r L cur (id :: rest) indeg queue =
          decPass r L cur rest indeg queue := by
        simp [decPass, hidL]
      rw [hstep, ih _ _ hndr]
      have hfun : decIndeg r L cur rest indeg = decIndeg r L cur (id :: rest) indeg := by
        funext x
        by_cases hx : x = id
        · subst hx; simp [decIndeg, hidL]
        · simp [decIndeg, hx]
      have hq : newBatch r L cur rest indeg = newBatch r L cur (id :: rest) indeg := by
        simp [newBatch, List.filter_cons, hidL]
      rw [hfun, hq]

/-- Appending the popped node to sorted adds one decrement to each of its
dependents. -/
theorem countDecs_append (r : Registry) (sorted : List String) (cur id : String) :
    countDecs r (sorted ++ [cur]) id =
      countDecs r sorted id + (if cur ∈ depsOf r id then 1 else 0) := by
  by_cases h : cur ∈ depsOf r id
  · simp [countDecs, List.filter_append, h]
  · simp [countDecs, List.filter_append, h]

/-- If a node's multiset in-degree is covered by the distinct decrements it
received, then all its needed dependencies have been popped. -/
theorem deps_sorted_of_indeg_le (r : Registry) (L sorted : List String) (cur : String)
    (hnd : sorted.Nodup) (hsub : ∀ x ∈ sorted, x ∈ L)
    (hge : initIndeg r L cur ≤ countDecs r sorted cur) :
    ∀ d ∈ depsOf r cur, d ∈ L → d ∈ sorted := by
  intro d hd hdL
  set D := (depsOf r cur).filter (fun x => decide (x ∈ L)) with hD
  set S := sorted.filter (fun c => decide (c ∈ depsOf r cur)) with hS
  have hlen : D.length ≤ S.length := by
    have : (D.length : Int) ≤ (S.length : Int) := hge
    exact_mod_cast this
  have hSnd : S.Nodup := hnd.filter _
  have hsubF : S.toFinset ⊆ D.toFinset := by
    intro x hx
    rw [List.mem_toFinset, hS, List.mem_filter] at hx
    rw [List.mem_toFinset, hD, List.mem_filter]
    refine ⟨by simpa using hx.2, by simp [hsub x hx.1]⟩
  have hcards : D.toFinset.card ≤ S.toFinset.card := by
    calc D.toFinset.card ≤ D.length := List.toFinset_card_le D
      _ ≤ S.length := hlen
      _ = S.toFinset.card := (List.toFinset_card_of_nodup hSnd).symm
  have heq : S.toFinset = D.toFinset := Finset.eq_of_subset_of_card_le hsubF hcards
  have hdD : d ∈ D.toFinset := by
    rw [List.mem_toFinset, hD, List.mem_filter]
    exact ⟨hd, by simp [hdL]⟩
  rw [← heq, List.mem_toFinset, hS, List.mem_filter] at hdD
  exact hdD.1

/-- A node with a duplicated needed dependency can never receive enough
distinct decrements to reach in-degree zero. -/
theorem dup_indeg_never_zero (r : Registry) (L res : List String) (cur : String)
    (hnd : res.Nodup) (hclosed : ∀ d ∈ depsOf r cur, d ∈ L)
    (hdup : ¬(depsOf r cur).Nodup) :
    countDecs r res cur < initIndeg r L cur := by
  have hfull : (depsOf r cur).filter (fun x => decide (x ∈ L)) = depsOf r cur := by
    refine List.filter_eq_self.mpr ?_
    intro a ha
    simp [hclosed a ha]
  have hinit : initIndeg r L cur = ((depsOf r cur).length : Int) := by
    rw [initIndeg, hfull]
  have hdedup_lt : (depsOf r cur).dedup.length < (depsOf r cur).length := by
    rcases Nat.lt_or_ge (depsOf r cur).dedup.length (depsOf r cur).length with h | h
    · exact h
    · exfalso
      have hle : (depsOf r cur).dedup.length ≤ (depsOf r cur).length :=
        (List.dedup_sublist _).length_le
      have heq : (depsOf r cur).dedup.length = (depsOf r cur).length := by omega
      have := (List.dedup_sublist (depsOf r cur)).eq_of_length heq
      exact hdup (this ▸ List.nodup_dedup (depsOf r cur))
  have hcd : (res.filter (fun c => decide (c ∈ depsOf r cur))).length ≤
      (depsOf r cur).dedup.length := by
    have hnd2 : (res.filter (fun c => decide (c ∈ depsOf r cur))).Nodup := hnd.filter _
    have hsubF : (res.filter (fun c => decide (c ∈ depsOf r cur))).toFinset ⊆
        (depsOf r cur).toFinset := by
      intro x hx
      rw [List.mem_toFinset, List.mem_filter] at hx
      rw [List.mem_toFinset]
      simpa using hx.2
    calc (res.filter (fun c => decide (c ∈ depsOf r cur))).length
        = (res.filter (fun c => decide (c ∈ depsOf r cur))).toFinset.card :=
          (List.toFinset_card_of_nodup hnd2).symm
      _ ≤ (depsOf r cur).toFinset.card := Finset.card_le_card hsubF
      _ = (depsOf r cur).dedup.length := List.card_toFinset _
  rw [countDecs, hinit]
  have : (res.filter (fun c => decide (c ∈ depsOf r cur))).length <
      (depsOf r cur).length := by omega
  exact_mod_cast this

theorem initIndeg_nonneg (r : Registry) (L : List String) (id : String) :
    0 ≤ initIndeg r L id := by
  unfold initIndeg; exact_mod_cast Nat.zero_le _

/-- The loop invariant of the Kahn queue phase: processed-plus-ready nodes
are distinct needed nodes; the in-degree map records the initial count
minus the received decrements; a node is processed or ready exactly when
its count is exhausted; the processed list is topologically ordered; and
the remaining fuel covers the unprocessed part of the needed set. -/
def KInv (r : Registry) (L : List String) (fuel : Nat) (queue : List String)
    (indeg : String → Int) (sorted : List String) : Prop :=
  (sorted ++ queue).Nodup ∧
  (∀ x ∈ sorted ++ queue, x ∈ L) ∧
  (∀ id ∈ L, indeg id = initIndeg r L id - countDecs r sorted id) ∧
  (∀ id ∈ L, (indeg id ≤ 0 ↔ id ∈ sorted ++ queue)) ∧
  (∀ m ∈ sorted, ∀ d ∈ depsOf r m, d ∈ L → List.Sublist [d, m] sorted) ∧
  L.length ≤ fuel + sorted.length

theorem KInv_init (r : Registry) (L : List String) (hwf : r.WF)
    (hLsub : ∀ x ∈ L, x ∈ r.order) :
    KInv r L L.length (seedQueue r L) (initIndeg r L) [] := by
  refine ⟨?_, ?_, ?_, ?_, ?_, ?_⟩
  · simpa [seedQueue] using (hwf.1.filter _)
  · intro x hx
    simp only [List.nil_append] at hx
    rcases List.mem_filter.mp hx with ⟨_, hpred⟩
    simp only [Bool.and_eq_true, decide_eq_true_eq] at hpred
    exact hpred.1
  · intro id _
    simp [countDecs]
  · intro id hid
    constructor
    · intro hle
      have h0 : initIndeg r L id = 0 := by
        have := initIndeg_nonneg r L id
        omega
      simp only [List.nil_append, seedQueue, List.mem_filter]
      exact ⟨hLsub id hid, by simp [hid, h0]⟩
    · intro hmem
      simp only [List.nil_append, seedQueue, List.mem_filter] at hmem
      have h2 := hmem.2
      simp only [Bool.and_eq_true, decide_eq_true_eq] at h2
      rw [h2.2]
  · intro m hm
    simp at hm
  · simp

theorem KInv_step (r : Registry) (L : List String) (hwf : r.WF)
    (hLsub : ∀ x ∈ L, x ∈ r.order)
    (fuel : Nat) (cur : String) (queue : List String) (indeg : String → Int)
    (sorted : List String)
    (hinv : KInv r L (fuel + 1) (cur :: queue) indeg sorted) :
    KInv r L fuel (queue ++ newBatch r L cur r.order indeg)
      (decIndeg r L cur r.order indeg) (sorted ++ [cur]) := by
  obtain ⟨inv1, inv2, inv3, inv4, inv5, inv6⟩ := hinv
  have hcurL : cur ∈ L := inv2 cur (by simp)
  have hnb : ∀ x, x ∈ newBatch r L cur r.order indeg ↔
      (x ∈ r.order ∧ x ∈ L ∧ cur ∈ depsOf r x ∧ indeg x = 1) := by
    intro x
    simp only [newBatch, List.mem_filter, Bool.and_eq_true, decide_eq_true_eq]
    tauto
  have hnbnd : (newBatch r L cur r.order indeg).Nodup := hwf.1.filter _
  have hnbfresh : ∀ x ∈ newBatch r L cur r.order indeg, x ∉ sorted ++ cur :: queue := by
    intro x hx hxm
    rcases (hnb x).mp hx with ⟨-, hxL, -, hone⟩
    have := (inv4 x hxL).mpr hxm
    omega
  have hsortnd : sorted.Nodup := (List.nodup_append.mp inv1).1
  have hsortL : ∀ x ∈ sorted, x ∈ L := fun x hx => inv2 x (List.mem_append_left _ hx)
  refine ⟨?_, ?_, ?_, ?_, ?_, ?_⟩
  · have hperm : (sorted ++ [cur]) ++ (queue ++ newBatch r L cur r.order indeg) =
        (sorted ++ cur :: queue) ++ newBatch r L cur r.order indeg := by simp
    rw [hperm]
    refine List.Nodup.append inv1 hnbnd ?_
    intro a ha hanb
    exact hnbfresh a hanb ha
  · intro x hx
    have hx2 : x ∈ (sorted ++ cur :: queue) ++ newBatch r L cur r.order indeg := by
      simpa using hx
    rcases List.mem_append.mp hx2 with hx2 | hx2
    · exact inv2 x hx2
    · exact ((hnb x).mp hx2).2.1
  · intro id hid
    rw [countDecs_append]
    have h3 := inv3 id hid
    by_cases hc : cur ∈ depsOf r id
    · simp only [decIndeg, hLsub id hid, hid, hc, and_self, if_pos, if_true]
      simp [hc] at *
      omega
    · simp only [decIndeg, hc, and_false, if_neg, if_false]
      simp [hc] at *
      omega
  · intro id hid
    have hmemiff : id ∈ (sorted ++ [cur]) ++ (queue ++ newBatch r L cur r.order indeg) ↔
        (id ∈ sorted ++ cur :: queue ∨ id ∈ newBatch r L cur r.order indeg) := by
      constructor
      · intro h
        have : id ∈ (sorted ++ cur :: queue) ++ newBatch r L cur r.order indeg := by
          simpa using h
        exact List.mem_append.mp this
      · intro h
        have : id ∈ (sorted ++ cur :: queue) ++ newBatch r L cur r.order indeg :=
          List.mem_append.mpr h
        simpa using this
    rw [hmemiff]
    by_cases hc : cur ∈ depsOf r id
    · have hdec : decIndeg r L cur r.order indeg id = indeg id - 1 := by
        simp [decIndeg, hLsub id hid, hid, hc]
      rw [hdec]
      constructor
      · intro h
        by_cases hz : indeg id ≤ 0
        · exact Or.inl ((inv4 id hid).mp hz)
        · refine Or.inr ((hnb id).mpr ⟨hLsub id hid, hid, hc, by omega⟩)
      · intro h
        rcases h with h | h
        · have := (inv4 id hid).mpr h
          omega
        · have := ((hnb id).mp h).2.2.2
          omega
    · have hdec : decIndeg r L cur r.order indeg id = indeg id := by
        simp [decIndeg, hc]
      rw [hdec]
      constructor
      · intro h
        exact Or.inl ((inv4 id hid).mp h)
      · intro h
        rcases h with h | h
        · exact (inv4 id hid).mpr h
        · exact absurd ((hnb id).mp h).2.2.1 hc
  · intro m hm d hd hdL
    rcases List.mem_append.mp hm with hm | hm
    · exact (inv5 m hm d hd hdL).trans (List.sublist_append_left _ _)
    · have hmc : m = cur := by simpa using hm
      subst hmc
      have hle : indeg m ≤ 0 := (inv4 m hcurL).mpr (by simp)
      have hge : initIndeg r L m ≤ countDecs r sorted m := by
        have := inv3 m hcurL
        omega
      have hds : d ∈ sorted :=
        deps_sorted_of_indeg_le r L sorted m hsortnd hsortL hge d hd hdL
      have h1 : List.Sublist [d] sorted := List.singleton_sublist.mpr hds
      have := List.Sublist.append h1 (List.Sublist.refl [m])
      simpa using this
  · simp only [List.length_append, List.length_singleton]
    omega

theorem nodup_subset_length_le {l L : List String} (hnd : l.Nodup)
    (hsub : ∀ x ∈ l, x ∈ L) : l.length ≤ L.length := by
  calc l.length = l.toFinset.card := (List.toFinset_card_of_nodup hnd).symm
    _ ≤ L.toFinset.card := Finset.card_le_card (by
        intro x hx
        rw [List.mem_toFinset] at hx ⊢
        exact hsub x hx)
    _ ≤ L.length := List.toFinset_card_le L

/-- What the invariant yields once the ready queue has drained. -/
theorem KInv_final (r : Registry) (L : List String) (fuel : Nat)
    (indeg : String → Int) (sorted : List String)
    (hinv : KInv r L fuel [] indeg sorted) :
    sorted.Nodup ∧ (∀ x ∈ sorted, x ∈ L) ∧
    (∀ m ∈ sorted, ∀ d ∈ depsOf r m, d ∈ L → List.Sublist [d, m] sorted) ∧
    (∀ id ∈ L, (initIndeg r L id ≤ countDecs r sorted id ↔ id ∈ sorted)) := by
  obtain ⟨inv1, inv2, inv3, inv4, inv5, inv6⟩ := hinv
  simp only [List.append_nil] at inv1 inv2 inv4
  refine ⟨inv1, inv2, inv5, ?_⟩
  intro id hid
  have h3 := inv3 id hid
  have h4 := inv4 id hid
  constructor
  · intro h; exact h4.mp (by omega)
  · intro h
    have := h4.mpr h
    omega

/-- Running the Kahn loop from any invariant state: the output is a
duplicate-free topologically ordered subset of the needed set, the current
processed-plus-ready nodes embed into it in order, and a needed node lands
in the output exactly when its in-degree count is exhausted there. -/
theorem kahn_run (r : Registry) (L : List String) (hwf : r.WF)
    (hLsub : ∀ x ∈ L, x ∈ r.order) :
    ∀ (fuel : Nat) (queue : List String) (indeg : String → Int) (sorted : List String),
      KInv r L fuel queue indeg sorted →
      (kahnLoop r L fuel queue indeg sorted).Nodup ∧
      (∀ x ∈ kahnLoop r L fuel queue indeg sorted, x ∈ L) ∧
      (∀ m ∈ kahnLoop r L fuel queue indeg sorted, ∀ d ∈ depsOf r m, d ∈ L →
        List.Sublist [d, m] (kahnLoop r L fuel queue indeg sorted)) ∧
      List.Sublist (sorted ++ queue) (kahnLoop r L fuel queue indeg sorted) ∧
      (∀ id ∈ L, (initIndeg r L id ≤
          countDecs r (kahnLoop r L fuel queue indeg sorted) id
        ↔ id ∈ kahnLoop r L fuel queue indeg sorted)) := by
  intro fuel
  induction fuel with
  | zero =>
    intro queue indeg sorted hinv
    have hq : queue = [] := by
      have hlen := nodup_subset_length_le hinv.1 hinv.2.1
      have h6 := hinv.2.2.2.2.2
      simp only [List.length_append] at hlen
      have : queue.length = 0 := by omega
      exact List.eq_nil_of_length_eq_zero this
    subst hq
    have hfin := KInv_final r L 0 indeg sorted hinv
    simp only [kahnLoop]
    exact ⟨hfin.1, hfin.2.1, hfin.2.2.1, by simp, hfin.2.2.2⟩
  | succ f ih =>
    intro queue indeg sorted hinv
    cases queue with
    | nil =>
      have hfin := KInv_final r L (f + 1) indeg sorted hinv
      simp only [kahnLoop]
      exact ⟨hfin.1, hfin.2.1, hfin.2.2.1, by simp, hfin.2.2.2⟩
    | cons cur rest =>
      have hstep := KInv_step r L hwf hLsub f cur rest indeg sorted hinv
      have hloop : kahnLoop r L (f + 1) (cur :: rest) indeg sorted =
          kahnLoop r L f (rest ++ newBatch r L cur r.order indeg)
            (decIndeg r L cur r.order indeg) (sorted ++ [cur]) := by
        simp only [kahnLoop]
        rw [decPass_eq r L cur r.order indeg rest hwf.1]
      rw [hloop]
      rcases ih (rest ++ newBatch r L cur r.order indeg)
        (decIndeg r L cur r.order indeg) (sorted ++ [cur]) hstep with
        ⟨c1, c2, c3, c4, c5⟩
      refine ⟨c1, c2, c3, ?_, c5⟩
      refine List.Sublist.trans ?_ c4
      have h1 : List.Sublist rest (rest ++ newBatch r L cur r.order indeg) :=
        List.sublist_append_left _ _
      have h2 := h1.append_left (sorted ++ [cur])
      simp only [List.append_assoc, List.singleton_append, List.cons_append,
        List.nil_append] at h2 ⊢
      exact h2

/-- "A topological order of the needed set exists": a duplicate-free list
of exactly the reachable ids in which every dependency of a listed module
appears before it. -/
def AcyclicNeeded (r : Registry) (ids : List String) : Prop :=
  ∃ T, T.Nodup ∧ (∀ x, x ∈ T ↔ Reaches r ids x) ∧
    ∀ m ∈ T, ∀ d ∈ depsOf r m, List.Sublist [d, m] T

/-- Pair-sublist inversion at a cons. -/
theorem pair_sublist_cons {a b x : String} {l : List String}
    (h : List.Sublist [a, b] (x :: l)) :
    (a = x ∧ List.Sublist [b] l) ∨ List.Sublist [a, b] l := by
  cases h with
  | cons _ h => exact Or.inr h
  | cons₂ _ h => exact Or.inl ⟨rfl, h⟩

/-- A pair in relative order survives filtering when both members satisfy
the predicate. -/
theorem pair_sublist_filter {a b : String} {l : List String} {p : String → Bool}
    (h : List.Sublist [a, b] l) (ha : p a = true) (hb : p b = true) :
    List.Sublist [a, b] (l.filter p) := by
  have := h.filter p
  simpa [ha, hb] using this

/-- Nothing strictly precedes the head of a filtered list within it. -/
theorem head_filter_minimal {T : List String} {p : String → Bool} {id0 : String}
    {tl : List String} (hT : T.Nodup) (hM : T.filter p = id0 :: tl)
    {d : String} (hd : List.Sublist [d, id0] T) (hpd : p d = true) : False := by
  have hid0 : id0 ∈ T.filter p := by rw [hM]; exact List.mem_cons_self _ _
  have hpid0 : p id0 = true := (List.mem_filter.mp hid0).2
  have hMnd : (T.filter p).Nodup := hT.filter p
  rw [hM] at hMnd
  have hsub := pair_sublist_filter hd hpd hpid0
  rw [hM] at hsub
  rcases pair_sublist_cons hsub with ⟨rfl, h1⟩ | h1
  · exact (List.nodup_cons.mp hMnd).1 (List.singleton_sublist.mp h1)
  · exact (List.nodup_cons.mp hMnd).1
      (h1.subset (by simp))

/-- When every dependency occurrence has been popped, the distinct
decrement count covers a duplicate-free dependency list. -/
theorem count_covers_deps (r : Registry) (res : List String) (cur : String)
    (hdepnd : (depsOf r cur).Nodup) (hresnd : res.Nodup)
    (hall : ∀ d ∈ depsOf r cur, d ∈ res) :
    ((depsOf r cur).length : Int) ≤ countDecs r res cur := by
  have hnd2 : (res.filter (fun c => decide (c ∈ depsOf r cur))).Nodup := hresnd.filter _
  have hsubF : (depsOf r cur).toFinset ⊆
      (res.filter (fun c => decide (c ∈ depsOf r cur))).toFinset := by
    intro x hx
    rw [List.mem_toFinset] at hx
    rw [List.mem_toFinset, List.mem_filter]
    exact ⟨hall x hx, by simp [hx]⟩
  have : (depsOf r cur).length ≤
      (res.filter (fun c => decide (c ∈ depsOf r cur))).length := by
    calc (depsOf r cur).length = (depsOf r cur).toFinset.card :=
          (List.toFinset_card_of_nodup hdepnd).symm
      _ ≤ (res.filter (fun c => decide (c ∈ depsOf r cur))).toFinset.card :=
          Finset.card_le_card hsubF
      _ = (res.filter (fun c => decide (c ∈ depsOf r cur))).length :=
          List.toFinset_card_of_nodup hnd2
  rw [countDecs]
  exact_mod_cast this

/-- The initial in-degree never exceeds the dependency count. -/
theorem initIndeg_le_deps (r : Registry) (L : List String) (id : String) :
    initIndeg r L id ≤ ((depsOf r id).length : Int) := by
  rw [initIndeg]
  exact_mod_cast List.length_filter_le _ _

/-- A strict-subset counting fact: a duplicate-free subset of L missing one
of L's members is strictly shorter. -/
theorem missing_length_lt {res L : List String} (hresnd : res.Nodup) (hLnd : L.Nodup)
    (hsub : ∀ y ∈ res, y ∈ L) {x : String} (hxL : x ∈ L) (hxres : x ∉ res) :
    res.length < L.length := by
  have hsubF : res.toFinset ⊆ L.toFinset.erase x := by
    intro y hy
    rw [List.mem_toFinset] at hy
    rw [Finset.mem_erase]
    exact ⟨fun h => hxres (h ▸ hy), List.mem_toFinset.mpr (hsub y hy)⟩
  have hxF : x ∈ L.toFinset := List.mem_toFinset.mpr hxL
  have h1 : res.toFinset.card ≤ L.toFinset.card - 1 := by
    calc res.toFinset.card ≤ (L.toFinset.erase x).card := Finset.card_le_card hsubF
      _ = L.toFinset.card - 1 := Finset.card_erase_of_mem hxF
  have h2 : 0 < L.toFinset.card := Finset.card_pos.mpr ⟨x, hxF⟩
  calc res.length = res.toFinset.card := (List.toFinset_card_of_nodup hresnd).symm
    _ < L.toFinset.card := by omega
    _ = L.length := List.toFinset_card_of_nodup hLnd

/-- If the collect phase succeeded, ResolveDeps reduces to the Kahn loop
plus the completeness check. -/
theorem resolveDeps_collect_ok (r : Registry) (ids : List String) (L : List String)
    (h : collectListGo (r.order.length + 1) r [] ids = Except.ok L) :
    r.resolveDeps ids =
      (if (kahnLoop r L L.length (seedQueue r L) (initIndeg r L) []).length = L.length
       then Except.ok (kahnLoop r L L.length (seedQueue r L) (initIndeg r L) [])
       else Except.error cycleMsg) := by
  unfold Registry.resolveDeps
  rw [h]

/-- If the collect phase failed, ResolveDeps propagates the error. -/
theorem resolveDeps_collect_error (r : Registry) (ids : List String) (e : String)
    (h : collectListGo (r.order.length + 1) r [] ids = Except.error e) :
    r.resolveDeps ids = Except.error e := by
  unfold Registry.resolveDeps
  rw [h]

/-- Unpacked collect postconditions. -/
theorem needed_props (r : Registry) (ids L : List String) (hwf : r.WF)
    (hco : collectListGo (r.order.length + 1) r [] ids = Except.ok L) :
    L.Nodup ∧ (∀ x ∈ L, (r.get x).isSome) ∧ (∀ x, x ∈ L ↔ Reaches r ids x) ∧
    (∀ x ∈ L, ∀ d ∈ depsOf r x, d ∈ L) ∧ (∀ d ∈ ids, d ∈ L) := by
  have hspec := neededTop_spec r hwf ids
  rw [hco] at hspec
  exact hspec

/-- A duplicate-free subset of a duplicate-free list of at most the same
length exhausts it. -/
theorem subset_eq_of_length {res L : List String} (hr : res.Nodup) (hL : L.Nodup)
    (hsub : ∀ x ∈ res, x ∈ L) (hlen : L.length ≤ res.length) :
    ∀ x ∈ L, x ∈ res := by
  have hsubF : res.toFinset ⊆ L.toFinset := by
    intro x hx
    rw [List.mem_toFinset] at hx ⊢
    exact hsub x hx
  have hcard : L.toFinset.card ≤ res.toFinset.card := by
    rw [List.toFinset_card_of_nodup hr, List.toFinset_card_of_nodup hL]
    exact hlen
  have heq := Finset.eq_of_subset_of_card_le hsubF hcard
  intro x hx
  have : x ∈ res.toFinset := by
    rw [heq, List.mem_toFinset]
    exact hx
  exact List.mem_toFinset.mp this

/-- Core success theorem: with the needed set fully registered,
duplicate-dependency-free and admitting a topological order, ResolveDeps
returns exactly the needed ids, each once, dependencies first. -/
theorem resolve_ok_core (r : Registry) (ids : List String) (hwf : r.WF)
    (hreg : ∀ x, Reaches r ids x → (r.get x).isSome)
    (hnd : ∀ x, Reaches r ids x → (depsOf r x).Nodup)
    (hacyc : AcyclicNeeded r ids) :
    ∃ out, r.resolveDeps ids = Except.ok out ∧ out.Nodup ∧
      (∀ x, x ∈ out ↔ Reaches r ids x) ∧
      ∀ m ∈ out, ∀ d ∈ depsOf r m, List.Sublist [d, m] out := by
  rcases hres : collectListGo (r.order.length + 1) r [] ids with e | L
  · have hspec := neededTop_spec r hwf ids
    rw [hres] at hspec
    rcases hspec with ⟨x, -, hxn, hxr⟩
    exact absurd (hreg x hxr) (by simp [hxn])
  · obtain ⟨hLnd, hLreg, hLiff, hLcl, hLids⟩ := needed_props r ids L hwf hres
    have hLsub : ∀ x ∈ L, x ∈ r.order := fun x hx =>
      registered_mem_order r hwf x (hLreg x hx)
    set res := kahnLoop r L L.length (seedQueue r L) (initIndeg r L) [] with hresdef
    obtain ⟨c1, c2, c3, c4, c5⟩ := kahn_run r L hwf hLsub L.length (seedQueue r L)
      (initIndeg r L) [] (KInv_init r L hwf hLsub)
    rw [← hresdef] at c1 c2 c3 c4 c5
    have hcomp : ∀ id ∈ L, id ∈ res := by
      by_contra hmiss
      push_neg at hmiss
      obtain ⟨id, hidL, hidnr⟩ := hmiss
      obtain ⟨T, hTnd, hTiff, hTtopo⟩ := hacyc
      have hTL : ∀ x, x ∈ T ↔ x ∈ L := fun x => (hTiff x).trans (hLiff x).symm
      rcases hM : T.filter (fun x => !decide (x ∈ res)) with _ | ⟨id0, tl⟩
      · have hidM : id ∈ T.filter (fun x => !decide (x ∈ res)) :=
          List.mem_filter.mpr ⟨(hTL id).mpr hidL, by simp [hidnr]⟩
        rw [hM] at hidM
        simp at hidM
      · have hid0M : id0 ∈ T.filter (fun x => !decide (x ∈ res)) := by
          rw [hM]; exact List.mem_cons_self _ _
        have hid0T : id0 ∈ T := (List.mem_filter.mp hid0M).1
        have hid0nr : id0 ∉ res := by
          have := (List.mem_filter.mp hid0M).2
          simpa using this
        have hid0L : id0 ∈ L := (hTL id0).mp hid0T
        have hdepres : ∀ d ∈ depsOf r id0, d ∈ res := by
          intro d hd
          by_contra hdnr
          exact head_filter_minimal hTnd hM (hTtopo id0 hid0T d hd) (by simp [hdnr])
        have hge : initIndeg r L id0 ≤ countDecs r res id0 :=
          le_trans (initIndeg_le_deps r L id0)
            (count_covers_deps r res id0 (hnd id0 ((hLiff id0).mp hid0L)) c1 hdepres)
        exact hid0nr ((c5 id0 hid0L).mp hge)
    have hlen : res.length = L.length := by
      have h1 := nodup_subset_length_le c1 c2
      have h2 := nodup_subset_length_le hLnd hcomp
      omega
    refine ⟨res, ?_, c1, ?_, ?_⟩
    · rw [resolveDeps_collect_ok r ids L hres, ← hresdef, if_pos hlen]
    · intro x
      constructor
      · intro hx; exact (hLiff x).mp (c2 x hx)
      · intro hx; exact hcomp x ((hLiff x).mpr hx)
    · intro m hm d hd
      exact c3 m hm d hd (hLcl m (c2 m hm) d hd)

/-- Core missing-dependency theorem: a reachable unregistered id makes
ResolveDeps fail with an error naming such an id. -/
theorem resolve_missing_core (r : Registry) (ids : List String) (hwf : r.WF)
    (hmiss : ∃ x, Reaches r ids x ∧ r.get x = none) :
    ∃ x, r.resolveDeps ids = Except.error (missingMsg x) ∧ r.get x = none ∧
      Reaches r ids x := by
  rcases hres : collectListGo (r.order.length + 1) r [] ids with e | L
  · have hspec := neededTop_spec r hwf ids
    rw [hres] at hspec
    rcases hspec with ⟨x, he, hxn, hxr⟩
    exact ⟨x, by rw [resolveDeps_collect_error r ids e hres, he], hxn, hxr⟩
  · obtain ⟨-, hLreg, hLiff, -, -⟩ := needed_props r ids L hwf hres
    rcases hmiss with ⟨x, hxr, hxn⟩
    exact absurd (hLreg x ((hLiff x).mpr hxr)) (by simp [hxn])

/-- Core duplicate-dependency theorem: when everything reachable is
registered but some reachable module lists a dependency twice, the
decrement phase can never exhaust its inflated in-degree and ResolveDeps
reports a (spurious) cycle. -/
theorem resolve_dup_core (r : Registry) (ids : List String) (hwf : r.WF)
    (hreg : ∀ x, Reaches r ids x → (r.get x).isSome)
    (hdup : ∃ x, Reaches r ids x ∧ ¬(depsOf r x).Nodup) :
    r.resolveDeps ids = Except.error cycleMsg := by
  rcases hres : collectListGo (r.order.length + 1) r [] ids with e | L
  · have hspec := neededTop_spec r hwf ids
    rw [hres] at hspec
    rcases hspec with ⟨x, -, hxn, hxr⟩
    exact absurd (hreg x hxr) (by simp [hxn])
  · obtain ⟨hLnd, hLreg, hLiff, hLcl, -⟩ := needed_props r ids L hwf hres
    have hLsub : ∀ x ∈ L, x ∈ r.order := fun x hx =>
      registered_mem_order r hwf x (hLreg x hx)
    set res := kahnLoop r L L.length (seedQueue r L) (initIndeg r L) [] with hresdef
    obtain ⟨c1, c2, c3, c4, c5⟩ := kahn_run r L hwf hLsub L.length (seedQueue r L)
      (initIndeg r L) [] (KInv_init r L hwf hLsub)
    rw [← hresdef] at c1 c2 c3 c4 c5
    rcases hdup with ⟨x, hxr, hxd⟩
    have hxL : x ∈ L := (hLiff x).mpr hxr
    have hlt : countDecs r res x < initIndeg r L x :=
      dup_indeg_never_zero r L res x c1 (fun d hd => hLcl x hxL d hd) hxd
    have hxnr : x ∉ res := by
      intro hmem
      have := (c5 x hxL).mpr hmem
      omega
    have hlen : res.length < L.length := missing_length_lt c1 hLnd c2 hxL hxnr
    rw [resolveDeps_collect_ok r ids L hres, ← hresdef, if_neg (by omega)]

/-- Whenever ResolveDeps succeeds, its output is a duplicate-free
topological order of exactly the reachable set, all registered, containing
every requested id. -/
theorem resolveDeps_ok_props (r : Registry) (ids out : List String) (hwf : r.WF)
    (hok : r.resolveDeps ids = Except.ok out) :
    out.Nodup ∧ (∀ x, x ∈ out ↔ Reaches r ids x) ∧ (∀ x ∈ out, (r.get x).isSome) ∧
    (∀ m ∈ out, ∀ d ∈ depsOf r m, List.Sublist [d, m] out) ∧
    (∀ d ∈ ids, d ∈ out) := by
  rcases hres : collectListGo (r.order.length + 1) r [] ids with e | L
  · rw [resolveDeps_collect_error r ids e hres] at hok
    cases hok
  · obtain ⟨hLnd, hLreg, hLiff, hLcl, hLids⟩ := needed_props r ids L hwf hres
    have hLsub : ∀ x ∈ L, x ∈ r.order := fun x hx =>
      registered_mem_order r hwf x (hLreg x hx)
    set res := kahnLoop r L L.length (seedQueue r L) (initIndeg r L) [] with hresdef
    obtain ⟨c1, c2, c3, c4, c5⟩ := kahn_run r L hwf hLsub L.length (seedQueue r L)
      (initIndeg r L) [] (KInv_init r L hwf hLsub)
    rw [← hresdef] at c1 c2 c3 c4 c5
    rw [resolveDeps_collect_ok r ids L hres, ← hresdef] at hok
    by_cases hlen : res.length = L.length
    · rw [if_pos hlen] at hok
      injection hok with hout
      subst hout
      have hLres : ∀ x ∈ L, x ∈ res :=
        subset_eq_of_length c1 hLnd c2 (by omega)
      refine ⟨c1, ?_, ?_, ?_, ?_⟩
      · intro x
        constructor
        · intro hx; exact (hLiff x).mp (c2 x hx)
        · intro hx; exact hLres x ((hLiff x).mpr hx)
      · intro x hx; exact hLreg x (c2 x hx)
      · intro m hm d hd
        exact c3 m hm d hd (hLcl m (c2 m hm) d hd)
      · intro d hd; exact hLres d (hLids d hd)
    · rw [if_neg hlen] at hok
      cases hok

/-- A successful resolution certifies that the needed set admits a
topological order. -/
theorem acyclic_of_ok (r : Registry) (ids out : List String) (hwf : r.WF)
    (hok : r.resolveDeps ids = Except.ok out) : AcyclicNeeded r ids := by
  obtain ⟨c1, c2, _, c4, _⟩ := resolveDeps_ok_props r ids out hwf hok
  exact ⟨out, c1, c2, c4⟩

/-! ### Concrete registries for counterexamples and witnesses -/

instance : DecidableEq (Except String (List String)) := fun a b =>
  match a, b with
  | Except.error x, Except.error y =>
    if h : x = y then isTrue (by rw [h])
    else isFalse (by intro hc; injection hc with h2; exact h h2)
  | Except.ok x, Except.ok y =>
    if h : x = y then isTrue (by rw [h])
    else isFalse (by intro hc; injection hc with h2; exact h h2)
  | Except.error _, Except.ok _ => isFalse (by intro hc; cases hc)
  | Except.ok _, Except.error _ => isFalse (by intro hc; cases hc)

/-- A step-less module fixture. -/
def mkMod (id : String) (deps : List String) : Module :=
  { id := id, dependencies := deps, steps := [] }

/-- Module "b" lists its dependency "a" twice. -/
def regDup : Registry :=
  (Registry.empty.register (mkMod "a" [])).register (mkMod "b" ["a", "a"])

/-- The spec's diamond: base is required by python and golang, which are
required by tools. -/
def regD : Registry :=
  (((Registry.empty.register (mkMod "base" [])).register
    (mkMod "python" ["base"])).register
    (mkMod "golang" ["base"])).register
    (mkMod "tools" ["python", "golang"])

/-- The spec's two-cycle: a depends on b depends on a. -/
def regC : Registry :=
  (Registry.empty.register (mkMod "a" ["b"])).register (mkMod "b" ["a"])

theorem regDup_reaches (x : String) (h : Reaches regDup ["b"] x) :
    x = "b" ∨ x = "a" := by
  induction h with
  | root hm => simp at hm; exact Or.inl hm
  | dep hx hget hd ih =>
    rcases ih with rfl | rfl
    · rw [show regDup.get "b" = some (mkMod "b" ["a", "a"]) from by decide] at hget
      injection hget with hm
      subst hm
      simp [mkMod] at hd
      exact Or.inr hd
    · rw [show regDup.get "a" = some (mkMod "a" []) from by decide] at hget
      injection hget with hm
      subst hm
      simp [mkMod] at hd

theorem regDup_registered : ∀ x, Reaches regDup ["b"] x → (regDup.get x).isSome := by
  intro x h
  rcases regDup_reaches x h with rfl | rfl <;> decide

theorem regDup_reaches_a : Reaches regDup ["b"] "a" :=
  Reaches.dep (Reaches.root (by simp))
    (show regDup.get "b" = some (mkMod "b" ["a", "a"]) from by decide)
    (by simp [mkMod])

theorem regDup_acyclic : AcyclicNeeded regDup ["b"] := by
  refine ⟨["a", "b"], by decide, ?_, ?_⟩
  · intro x
    constructor
    · intro hx
      rcases List.mem_cons.mp hx with rfl | hx
      · exact regDup_reaches_a
      · simp at hx
        subst hx
        exact Reaches.root (by simp)
    · intro hx
      rcases regDup_reaches x hx with rfl | rfl <;> simp
  · intro m hm d hd
    rcases List.mem_cons.mp hm with rfl | hm
    · simp [depsOf, show regDup.get "a" = some (mkMod "a" []) from by decide, mkMod] at hd
    · simp at hm
      subst hm
      rw [show depsOf regDup "b" = ["a", "a"] from by decide] at hd
      simp at hd
      subst hd
      decide

/-! ### C1, C8, C10 -/

/-- C1 counterexample: the needed set of regDup from {b} is fully
registered and acyclic (a topological order exists), yet ResolveDeps
fails with a cycle error — module "b" lists "a" twice, the in-degree
count is 2 but "a" is popped only once. The claim as stated is false. -/
theorem resolveDeps_correct_cex :
    regDup.WF ∧
    (∀ x, Reaches regDup ["b"] x → (regDup.get x).isSome) ∧
    AcyclicNeeded regDup ["b"] ∧
    regDup.resolveDeps ["b"] = Except.error cycleMsg :=
  ⟨by decide, regDup_registered, regDup_acyclic, by decide⟩

/-- C1 (amended): for a well-formed registry whose needed set is fully
registered, acyclic, AND in which no needed module lists the same
dependency twice, ResolveDeps succeeds and returns each needed id exactly
once, every dependency before its dependent. -/
theorem resolveDeps_correct (r : Registry) (ids : List String) (hwf : r.WF)
    (hreg : ∀ x, Reaches r ids x → (r.get x).isSome)
    (hnd : ∀ x, Reaches r ids x → (depsOf r x).Nodup)
    (hacyc : AcyclicNeeded r ids) :
    ∃ out, r.resolveDeps ids = Except.ok out ∧ out.Nodup ∧
      (∀ x, x ∈ out ↔ Reaches r ids x) ∧
      ∀ m ∈ out, ∀ d ∈ depsOf r m, List.Sublist [d, m] out :=
  resolve_ok_core r ids hwf hreg hnd hacyc

theorem regD_reaches (x : String) (h : Reaches regD ["tools"] x) :
    x = "tools" ∨ x = "python" ∨ x = "golang" ∨ x = "base" := by
  induction h with
  | root hm => simp at hm; exact Or.inl hm
  | dep hx hget hd ih =>
    rcases ih with rfl | rfl | rfl | rfl
    · rw [show regD.get "tools" = some (mkMod "tools" ["python", "golang"])
        from by decide] at hget
      injection hget with hm
      subst hm
      simp [mkMod] at hd
      rcases hd with rfl | rfl
      · exact Or.inr (Or.inl rfl)
      · exact Or.inr (Or.inr (Or.inl rfl))
    · rw [show regD.get "python" = some (mkMod "python" ["base"]) from by decide] at hget
      injection hget with hm
      subst hm
      simp [mkMod] at hd
      subst hd
      exact Or.inr (Or.inr (Or.inr rfl))
    · rw [show regD.get "golang" = some (mkMod "golang" ["base"]) from by decide] at hget
      injection hget with hm
      subst hm
      simp [mkMod] at hd
      subst hd
      exact Or.inr (Or.inr (Or.inr rfl))
    · rw [show regD.get "base" = some (mkMod "base" []) from by decide] at hget
      injection hget with hm
      subst hm
      simp [mkMod] at hd

theorem regD_reaches_python : Reaches regD ["tools"] "python" :=
  Reaches.dep (Reaches.root (by simp))
    (show regD.get "tools" = some (mkMod "tools" ["python", "golang"]) from by decide)
    (by simp [mkMod])

theorem regD_reaches_golang : Reaches regD ["tools"] "golang" :=
  Reaches.dep (Reaches.root (by simp))
    (show regD.get "tools" = some (mkMod "tools" ["python", "golang"]) from by decide)
    (by simp [mkMod])

theorem regD_reaches_base : Reaches regD ["tools"] "base" :=
  Reaches.dep regD_reaches_python
    (show regD.get "python" = some (mkMod "python" ["base"]) from by decide)
    (by simp [mkMod])

theorem regD_registered : ∀ x, Reaches regD ["tools"] x → (regD.get x).isSome := by
  intro x h
  rcases regD_reaches x h with rfl | rfl | rfl | rfl <;> decide

theorem regD_nd : ∀ x, Reaches regD ["tools"] x → (depsOf regD x).Nodup := by
  intro x h
  rcases regD_reaches x h with rfl | rfl | rfl | rfl <;> decide

theorem regD_acyclic : AcyclicNeeded regD ["tools"] := by
  refine ⟨["base", "python", "golang", "tools"], by decide, ?_, ?_⟩
  · intro x
    constructor
    · intro hx
      rcases List.mem_cons.mp hx with rfl | hx
      · exact regD_reaches_base
      rcases List.mem_cons.mp hx with rfl | hx
      · exact regD_reaches_python
      rcases List.mem_cons.mp hx with rfl | hx
      · exact regD_reaches_golang
      · simp at hx
        subst hx
        exact Reaches.root (by simp)
    · intro hx
      rcases regD_reaches x hx with rfl | rfl | rfl | rfl <;> simp
  · intro m hm d hd
    rcases List.mem_cons.mp hm with rfl | hm
    · rw [show depsOf regD "base" = [] from by decide] at hd
      simp at hd
    rcases List.mem_cons.mp hm with rfl | hm
    · rw [show depsOf regD "python" = ["base"] from by decide] at hd
      simp at hd
      subst hd
      decide
    rcases List.mem_cons.mp hm with rfl | hm
    · rw [show depsOf regD "golang" = ["base"] from by decide] at hd
      simp at hd
      subst hd
      decide
    · simp at hm
      subst hm
      rw [show depsOf regD "tools" = ["python", "golang"] from by decide] at hd
      simp at hd
      rcases hd with rfl | rfl <;> decide

/-- Witness for the amended C1 theorem on the spec's diamond, along with
the concrete resolved order. -/
theorem resolveDeps_correct_witness :
    regD.WF ∧
    regD.resolveDeps ["tools"] = Except.ok ["base", "python", "golang", "tools"] ∧
    (∃ out, regD.resolveDeps ["tools"] = Except.ok out ∧ out.Nodup ∧
      (∀ x, x ∈ out ↔ Reaches regD ["tools"] x) ∧
      ∀ m ∈ out, ∀ d ∈ depsOf regD m, List.Sublist [d, m] out) :=
  ⟨by decide, by decide,
    resolveDeps_correct regD ["tools"] (by decide) regD_registered regD_nd regD_acyclic⟩

/-- C10: if everything reachable is registered but some reachable module
lists the same dependency id more than once, ResolveDeps reports a
dependency-cycle error even on an acyclic graph: the in-degree pass counts
each duplicate occurrence, while the queue pass decrements a dependent at
most once per popped node, so the inflated in-degree never reaches zero. -/
theorem dupDep_cycle_error (r : Registry) (ids : List String) (hwf : r.WF)
    (hreg : ∀ x, Reaches r ids x → (r.get x).isSome)
    (hdup : ∃ x, Reaches r ids x ∧ ¬(depsOf r x).Nodup) :
    r.resolveDeps ids = Except.error cycleMsg :=
  resolve_dup_core r ids hwf hreg hdup

/-- Witness for C10 at the duplicate-dependency registry. -/
theorem dupDep_cycle_error_witness :
    regDup.WF ∧ ¬(depsOf regDup "b").Nodup ∧
    regDup.resolveDeps ["b"] = Except.error cycleMsg :=
  ⟨by decide, by decide,
    dupDep_cycle_error regDup ["b"] (by decide) regDup_registered
      ⟨"b", Reaches.root (by simp), by decide⟩⟩

/-- C8 counterexample: the duplicate-dependency registry fails resolution
although nothing is missing and a topological order of the needed set
exists — the claim's "fails if and only if missing or cyclic" is false. -/
theorem resolveDeps_error_iff_cex :
    regDup.WF ∧
    (∃ e, regDup.resolveDeps ["b"] = Except.error e) ∧
    ¬(∃ x, Reaches regDup ["b"] x ∧ regDup.get x = none) ∧
    AcyclicNeeded regDup ["b"] := by
  refine ⟨by decide, ⟨cycleMsg, by decide⟩, ?_, regDup_acyclic⟩
  rintro ⟨x, hx, hnone⟩
  exact absurd (regDup_registered x hx) (by simp [hnone])

/-- C8 (amended): ResolveDeps fails iff a reachable dependency is
unregistered, or some reachable module lists a dependency twice, or no
topological order of the needed set exists; a failure carries either the
cycle message or a missing-module message naming a reachable unregistered
id. (The Except result carries no list in the error case, so no partial
order is returned.) -/
theorem resolveDeps_error_iff (r : Registry) (ids : List String) (hwf : r.WF) :
    ((∃ e, r.resolveDeps ids = Except.error e) ↔
      ((∃ x, Reaches r ids x ∧ r.get x = none) ∨
       (∃ x, Reaches r ids x ∧ ¬(depsOf r x).Nodup) ∨
       ¬AcyclicNeeded r ids)) ∧
    (∀ e, r.resolveDeps ids = Except.error e →
      e = cycleMsg ∨ ∃ x, e = missingMsg x ∧ r.get x = none ∧ Reaches r ids x) := by
  constructor
  · constructor
    · rintro ⟨e, he⟩
      by_contra hcon
      push_neg at hcon
      obtain ⟨hnm, hnd2, hacy⟩ := hcon
      have hreg : ∀ x, Reaches r ids x → (r.get x).isSome := by
        intro x hx
        rcases hg : r.get x with _ | m
        · exact absurd hg (hnm x hx)
        · simp
      obtain ⟨out, hok, -⟩ := resolve_ok_core r ids hwf hreg hnd2 hacy
      rw [hok] at he
      cases he
    · intro h
      by_cases hm : ∃ x, Reaches r ids x ∧ r.get x = none
      · obtain ⟨x, hx, -, -⟩ := resolve_missing_core r ids hwf hm
        exact ⟨missingMsg x, hx⟩
      · have hreg : ∀ x, Reaches r ids x → (r.get x).isSome := by
          intro x hx
          rcases hg : r.get x with _ | m
          · exact absurd ⟨x, hx, hg⟩ hm
          · simp
        rcases h with h | h | h
        · exact absurd h hm
        · exact ⟨cycleMsg, resolve_dup_core r ids hwf hreg h⟩
        · rcases hres : r.resolveDeps ids with e | out
          · exact ⟨e, rfl⟩
          · exact absurd (acyclic_of_ok r ids out hwf hres) h
  · intro e he
    rcases hres : collectListGo (r.order.length + 1) r [] ids with e2 | L
    · have hspec := neededTop_spec r hwf ids
      rw [hres] at hspec
      rcases hspec with ⟨x, hx1, hx2, hx3⟩
      have he2 : e2 = e := by
        rw [resolveDeps_collect_error r ids e2 hres] at he
        injection he with h
      right
      exact ⟨x, he2 ▸ hx1, hx2, hx3⟩
    · left
      rw [resolveDeps_collect_ok r ids L hres] at he
      split at he
      · cases he
      · injection he with h
        exact h.symm

/-- Witness for the failure characterization on the spec's 2-cycle. -/
theorem resolveDeps_error_iff_witness :
    regC.WF ∧ regC.resolveDeps ["a"] = Except.error cycleMsg ∧
    (((∃ e, regC.resolveDeps ["a"] = Except.error e) ↔
      ((∃ x, Reaches regC ["a"] x ∧ regC.get x = none) ∨
       (∃ x, Reaches regC ["a"] x ∧ ¬(depsOf regC x).Nodup) ∨
       ¬AcyclicNeeded regC ["a"])) ∧
     (∀ e, regC.resolveDeps ["a"] = Except.error e →
       e = cycleMsg ∨ ∃ x, e = missingMsg x ∧ regC.get x = none ∧ Reaches regC ["a"] x)) :=
  ⟨by decide, by decide, resolveDeps_error_iff regC ["a"] (by decide)⟩

/-! ### C9: determinism and insertion-order tie-break -/

/-- Reachable states of the Kahn queue loop, from the seeded state. -/
inductive KReach (r : Registry) (L : List String) :
    Nat → List String → (String → Int) → List String → Prop
  | init : KReach r L L.length (seedQueue r L) (initIndeg r L) []
  | step {fuel : Nat} {cur : String} {queue : List String} {indeg : String → Int}
      {sorted : List String} :
      KReach r L (fuel + 1) (cur :: queue) indeg sorted →
      KReach r L fuel (queue ++ newBatch r L cur r.order indeg)
        (decIndeg r L cur r.order indeg) (sorted ++ [cur])

theorem KReach_inv (r : Registry) (L : List String) (hwf : r.WF)
    (hLsub : ∀ x ∈ L, x ∈ r.order)
    {fuel : Nat} {queue : List String} {indeg : String → Int} {sorted : List String}
    (h : KReach r L fuel queue indeg sorted) : KInv r L fuel queue indeg sorted := by
  induction h with
  | init => exact KInv_init r L hwf hLsub
  | step _ ih => exact KInv_step r L hwf hLsub _ _ _ _ _ ih

theorem KReach_out (r : Registry) (L : List String) (hwf : r.WF)
    {fuel : Nat} {queue : List String} {indeg : String → Int} {sorted : List String}
    (h : KReach r L fuel queue indeg sorted) :
    kahnLoop r L L.length (seedQueue r L) (initIndeg r L) [] =
      kahnLoop r L fuel queue indeg sorted := by
  induction h with
  | init => rfl
  | step hprev ih =>
    rw [ih]
    simp only [kahnLoop]
    rw [decPass_eq r L _ r.order _ _ hwf.1]

/-- Successful resolution pins the output to the Kahn run over the
collected needed set. -/
theorem resolveDeps_ok_eq_kahn (r : Registry) (ids out : List String)
    (hok : r.resolveDeps ids = Except.ok out) :
    collectListGo (r.order.length + 1) r [] ids = Except.ok (neededOf r ids) ∧
    out = kahnLoop r (neededOf r ids) (neededOf r ids).length
      (seedQueue r (neededOf r ids)) (initIndeg r (neededOf r ids)) [] := by
  rcases hres : collectListGo (r.order.length + 1) r [] ids with e | L
  · rw [resolveDeps_collect_error r ids e hres] at hok
    cases hok
  · have hne : neededOf r ids = L := by
      unfold neededOf
      rw [hres]
    rw [resolveDeps_collect_ok r ids L hres] at hok
    split at hok
    · injection hok with h
      exact ⟨by rw [hne], by rw [hne, h]⟩
    · cases hok

/-- C9: resolution is deterministic (a pure function of the registry state
and the requested ids), and the insertion-order tie-break holds at both
queue-filling sites: among the simultaneously seeded zero-in-degree nodes,
and among the nodes that become ready in the same decrement pass, the one
registered earlier always precedes the one registered later in the output. -/
theorem resolveDeps_deterministic (r1 r2 : Registry) (ids1 ids2 : List String)
    (hr : r1 = r2) (hi : ids1 = ids2) (hwf : r1.WF) :
    r1.resolveDeps ids1 = r2.resolveDeps ids2 ∧
    ∀ out, r1.resolveDeps ids1 = Except.ok out →
      ((∀ a b, a ∈ seedQueue r1 (neededOf r1 ids1) →
          b ∈ seedQueue r1 (neededOf r1 ids1) →
          List.Sublist [a, b] r1.order → List.Sublist [a, b] out) ∧
       (∀ fuel cur queue indeg sorted,
          KReach r1 (neededOf r1 ids1) (fuel + 1) (cur :: queue) indeg sorted →
          ∀ a b, a ∈ newBatch r1 (neededOf r1 ids1) cur r1.order indeg →
            b ∈ newBatch r1 (neededOf r1 ids1) cur r1.order indeg →
            List.Sublist [a, b] r1.order → List.Sublist [a, b] out)) := by
  subst hr
  subst hi
  refine ⟨rfl, ?_⟩
  intro out hok
  obtain ⟨hco, hout⟩ := resolveDeps_ok_eq_kahn r1 ids1 out hok
  obtain ⟨hLnd, hLreg, hLiff, hLcl, hLids⟩ :=
    needed_props r1 ids1 (neededOf r1 ids1) hwf hco
  have hLsub : ∀ x ∈ neededOf r1 ids1, x ∈ r1.order := fun x hx =>
    registered_mem_order r1 hwf x (hLreg x hx)
  constructor
  · intro a b ha hb hab
    have hseed : List.Sublist [a, b] (seedQueue r1 (neededOf r1 ids1)) :=
      pair_sublist_filter hab (List.mem_filter.mp ha).2 (List.mem_filter.mp hb).2
    have c4 := (kahn_run r1 (neededOf r1 ids1) hwf hLsub (neededOf r1 ids1).length
      (seedQueue r1 (neededOf r1 ids1)) (initIndeg r1 (neededOf r1 ids1)) []
      (KInv_init r1 (neededOf r1 ids1) hwf hLsub)).2.2.2.1
    rw [← hout] at c4
    simp only [List.nil_append] at c4
    exact hseed.trans c4
  · intro fuel cur queue indeg sorted hreach a b ha hb hab
    have hreach2 := KReach.step hreach
    have hinv2 := KReach_inv r1 (neededOf r1 ids1) hwf hLsub hreach2
    have c4 := (kahn_run r1 (neededOf r1 ids1) hwf hLsub fuel
      (queue ++ newBatch r1 (neededOf r1 ids1) cur r1.order indeg)
      (decIndeg r1 (neededOf r1 ids1) cur r1.order indeg)
      (sorted ++ [cur]) hinv2).2.2.2.1
    have hstatesEq := KReach_out r1 (neededOf r1 ids1) hwf hreach2
    rw [← hstatesEq, ← hout] at c4
    have hnb : List.Sublist [a, b]
        (newBatch r1 (neededOf r1 ids1) cur r1.order indeg) :=
      pair_sublist_filter hab (List.mem_filter.mp ha).2 (List.mem_filter.mp hb).2
    have h1 : List.Sublist [a, b]
        (queue ++ newBatch r1 (neededOf r1 ids1) cur r1.order indeg) :=
      hnb.trans (List.sublist_append_right _ _)
    have h2 : List.Sublist [a, b]
        ((sorted ++ [cur]) ++ (queue ++ newBatch r1 (neededOf r1 ids1) cur r1.order indeg)) :=
      h1.trans (List.sublist_append_right _ _)
    exact h2.trans c4

/-- Witness for determinism and tie-break on the diamond registry. -/
theorem resolveDeps_deterministic_witness :
    regD.WF ∧
    (regD.resolveDeps ["tools"] = regD.resolveDeps ["tools"] ∧
      ∀ out, regD.resolveDeps ["tools"] = Except.ok out →
        ((∀ a b, a ∈ seedQueue regD (neededOf regD ["tools"]) →
            b ∈ seedQueue regD (neededOf regD ["tools"]) →
            List.Sublist [a, b] regD.order → List.Sublist [a, b] out) ∧
         (∀ fuel cur queue indeg sorted,
            KReach regD (neededOf regD ["tools"]) (fuel + 1) (cur :: queue) indeg sorted →
            ∀ a b, a ∈ newBatch regD (neededOf regD ["tools"]) cur regD.order indeg →
              b ∈ newBatch regD (neededOf regD ["tools"]) cur regD.order indeg →
              List.Sublist [a, b] regD.order → List.Sublist [a, b] out))) :=
  ⟨by decide, resolveDeps_deterministic regD regD ["tools"] ["tools"] rfl rfl (by decide)⟩

/-- Under well-formedness, a looked-up module carries the id it is stored
under. -/
theorem get_id_eq (r : Registry) (hwf : r.WF) (id : String) (m : Module)
    (h : r.get id = some m) : m.id = id :=
  hwf.2.2.2 (id, m) (lookupMod_mem r.modules id m h)

/-! ### C7: RunModules -/

/-- The result of running the module registered under an id (the none
branch is unreachable for resolved ids and present only to keep the
function total). -/
def modRun (r : Registry) (dry : Bool) (id : String) : ModuleResult :=
  match r.get id with
  | some m => (runModuleTr dry m).1
  | none => { moduleID := id, completed := 0, skipped := 0, total := 0,
              failedStep := "", err := none }

/-- The action trace of running the module registered under an id. -/
def modTrace (r : Registry) (dry : Bool) (id : String) : List Action :=
  match r.get id with
  | some m => (runModuleTr dry m).2
  | none => []

/-- Generic first-failure split of a list by a Boolean predicate. -/
theorem firstTrueSplit {α : Type} (p : α → Bool) :
    ∀ (l : List α), (∀ x ∈ l, p x = false) ∨
      ∃ pre f post, l = pre ++ f :: post ∧ (∀ x ∈ pre, p x = false) ∧ p f = true := by
  intro l
  induction l with
  | nil => left; simp
  | cons x rest ih =>
    rcases hx : p x with _ | _
    · rcases ih with hok | ⟨pre, f, post, hsp, hpre, hf⟩
      · left
        intro y hy
        rcases List.mem_cons.mp hy with rfl | hy
        · exact hx
        · exact hok y hy
      · right
        refine ⟨x :: pre, f, post, by simp [hsp], ?_, hf⟩
        intro y hy
        rcases List.mem_cons.mp hy with rfl | hy
        · exact hx
        · exact hpre y hy
    · right
      exact ⟨[], x, rest, rfl, by simp, hx⟩

theorem runModulesLoop_ok (dry : Bool) (r : Registry) :
    ∀ (l : List String) (results : List ModuleResult) (tr : List Action),
      (∀ id ∈ l, (r.get id).isSome) →
      (∀ id ∈ l, (modRun r dry id).err = none) →
      runModulesLoop dry r l results tr =
        (results ++ l.map (modRun r dry), none, tr ++ (l.map (modTrace r dry)).join) := by
  intro l
  induction l with
  | nil => intro results tr _ _; simp [runModulesLoop]
  | cons id rest ih =>
    intro results tr hreg hok
    rcases hget : r.get id with _ | m
    · exact absurd (hreg id (List.mem_cons_self _ _)) (by simp [hget])
    · have hrm : modRun r dry id = (runModuleTr dry m).1 := by simp [modRun, hget]
      have hmt : modTrace r dry id = (runModuleTr dry m).2 := by simp [modTrace, hget]
      have herr : (runModuleTr dry m).1.err = none := by
        rw [← hrm]; exact hok id (List.mem_cons_self _ _)
      simp only [runModulesLoop, hget, herr, Option.isSome_none, Bool.false_eq_true,
        if_false]
      rw [ih (results ++ [(runModuleTr dry m).1]) (tr ++ (runModuleTr dry m).2)
        (fun x hx => hreg x (List.mem_cons_of_mem _ hx))
        (fun x hx => hok x (List.mem_cons_of_mem _ hx))]
      simp [hrm, hmt]

theorem runModulesLoop_fail (dry : Bool) (r : Registry) :
    ∀ (pre : List String) (fid : String) (rest : List String)
      (results : List ModuleResult) (tr : List Action),
      (∀ id ∈ pre, (r.get id).isSome) → (r.get fid).isSome →
      (∀ id ∈ pre, (modRun r dry id).err = none) →
      (modRun r dry fid).err.isSome →
      runModulesLoop dry r (pre ++ fid :: rest) results tr =
        (results ++ (pre ++ [fid]).map (modRun r dry), (modRun r dry fid).err,
          tr ++ ((pre ++ [fid]).map (modTrace r dry)).join) := by
  intro pre
  induction pre with
  | nil =>
    intro fid rest results tr _ hfreg hpre hferr
    rcases hget : r.get fid with _ | m
    · exact absurd hfreg (by simp [hget])
    · have hrm : modRun r dry fid = (runModuleTr dry m).1 := by simp [modRun, hget]
      have hmt : modTrace r dry fid = (runModuleTr dry m).2 := by simp [modTrace, hget]
      have herr : (runModuleTr dry m).1.err.isSome = true := by
        rw [← hrm]; exact hferr
      simp only [List.nil_append, runModulesLoop, hget, herr, if_true]
      simp [hrm, hmt]
  | cons id pre2 ih =>
    intro fid rest results tr hreg hfreg hpre hferr
    rcases hget : r.get id with _ | m
    · exact absurd (hreg id (List.mem_cons_self _ _)) (by simp [hget])
    · have hrm : modRun r dry id = (runModuleTr dry m).1 := by simp [modRun, hget]
      have hmt : modTrace r dry id = (runModuleTr dry m).2 := by simp [modTrace, hget]
      have herr : (runModuleTr dry m).1.err = none := by
        rw [← hrm]; exact hpre id (List.mem_cons_self _ _)
      simp only [List.cons_append, runModulesLoop, hget, herr, Option.isSome_none,
        Bool.false_eq_true, if_false, List.append_eq]
      rw [ih fid rest (results ++ [(runModuleTr dry m).1]) (tr ++ (runModuleTr dry m).2)
        (fun x hx => hreg x (List.mem_cons_of_mem _ hx)) hfreg
        (fun x hx => hpre x (List.mem_cons_of_mem _ hx)) hferr]
      simp [hrm, hmt]

/-- C7: RunModules returns the wrapped resolution error without running
anything (empty results, empty action trace) when resolution fails;
otherwise it runs the resolved modules in order, stopping at the first
module whose result carries an error: the returned results and trace cover
exactly the earlier modules plus the failing one, alongside that module's
error. -/
theorem runModules_spec (dry : Bool) (r : Registry) (ids : List String) (hwf : r.WF) :
    (∀ e, r.resolveDeps ids = Except.error e →
      runModules dry r ids = ([], some ("resolving dependencies: " ++ e), [])) ∧
    (∀ sorted, r.resolveDeps ids = Except.ok sorted →
      ((∀ id ∈ sorted, (modRun r dry id).err = none) →
        runModules dry r ids =
          (sorted.map (modRun r dry), none, (sorted.map (modTrace r dry)).join)) ∧
      (∀ pre fid rest, sorted = pre ++ fid :: rest →
        (∀ id ∈ pre, (modRun r dry id).err = none) →
        (modRun r dry fid).err.isSome →
        runModules dry r ids =
          ((pre ++ [fid]).map (modRun r dry), (modRun r dry fid).err,
            ((pre ++ [fid]).map (modTrace r dry)).join))) := by
  constructor
  · intro e he
    simp [runModules, he]
  · intro sorted hok
    have hreg : ∀ id ∈ sorted, (r.get id).isSome := by
      intro id hid
      exact (resolveDeps_ok_props r ids sorted hwf hok).2.2.1 id hid
    constructor
    · intro hall
      simp only [runModules, hok]
      rw [runModulesLoop_ok dry r sorted [] [] hreg hall]
      simp
    · intro pre fid rest hsp hpre hferr
      simp only [runModules, hok, hsp]
      rw [runModulesLoop_fail dry r pre fid rest [] []
        (fun x hx => hreg x (by rw [hsp]; exact List.mem_append_left _ hx))
        (hreg fid (by rw [hsp]; exact List.mem_append_right _ (List.mem_cons_self _ _)))
        hpre hferr]
      simp

/-- The spec's concrete failing scenario: one base module whose single
step always fails. -/
def regFail : Registry :=
  Registry.empty.register
    { id := "base", dependencies := [], steps := [failS] }

/-- Witness for RunModules on the failing base module: one result with the
wrapped error, the failing step's name, and zero completions. -/
theorem runModules_spec_witness :
    regFail.WF ∧ regFail.resolveDeps ["base"] = Except.ok ["base"] ∧
    runModules false regFail ["base"] =
      ([modRun regFail false "base"], (modRun regFail false "base").err,
        (([ "base" ].map (modTrace regFail false))).join) ∧
    (modRun regFail false "base").err =
      some (wrapStepErr "fail" "base" "boom") ∧
    (modRun regFail false "base").failedStep = "fail" ∧
    (modRun regFail false "base").completed = 0 := by
  refine ⟨by decide, by decide, ?_, by decide, by decide, by decide⟩
  have h := ((runModules_spec false regFail ["base"] (by decide)).2 ["base"]
    (by decide)).2 [] "base" [] rfl (by simp) (by decide)
  simpa using h

/-! ### C2: Bridge event order -/

/-- Well-formed step event sequences: zero or more StepStart events each
immediately followed by exactly one matching StepDone or StepError. -/
inductive StepSeq : List Event → Prop
  | nil : StepSeq []
  | done {mid n : String} {i t : Nat} {sk : Bool} {rest : List Event} :
      StepSeq rest →
      StepSeq (Event.stepStart mid n i t :: Event.stepDone mid n i t sk :: rest)
  | error {mid n : String} {i t : Nat} {e : String} {rest : List Event} :
      StepSeq rest →
      StepSeq (Event.stepStart mid n i t :: Event.stepError mid n i t e :: rest)

theorem StepSeq.append {A B : List Event} (hA : StepSeq A) (hB : StepSeq B) :
    StepSeq (A ++ B) := by
  induction hA with
  | nil => exact hB
  | done _ ih => exact StepSeq.done ih
  | error _ ih => exact StepSeq.error ih

/-- The hook events of one step form one well-formed pair in front of any
well-formed tail. -/
theorem StepSeq_stepTrace_append (dry : Bool) (total : Nat) (s : Step) (i : Nat)
    (mid : String) (rest : List Event) (hrest : StepSeq rest) :
    StepSeq ((stepTrace dry total s i).filterMap (eventOfAction mid) ++ rest) := by
  cases hc : s.hasCheck <;> cases hk : s.check <;> cases dry <;> cases hr : s.runErr <;>
    cases hd : s.hasDryRun <;>
    simp [stepTrace, eventOfAction, hc, hk, hr, hd] <;>
    first
      | exact StepSeq.done hrest
      | exact StepSeq.error hrest

theorem StepSeq_tracesFrom (dry : Bool) (total : Nat) (mid : String) :
    ∀ (steps : List Step) (i : Nat),
      StepSeq ((tracesFrom dry total steps i).filterMap (eventOfAction mid)) := by
  intro steps
  induction steps with
  | nil => intro i; simp [tracesFrom]; exact StepSeq.nil
  | cons s rest ih =>
    intro i
    simp only [tracesFrom, List.filterMap_append]
    exact StepSeq_stepTrace_append dry total s i mid _ (ih (i + 1))

/-- The hook events of one module run are a well-formed step sequence. -/
theorem StepSeq_runModule (dry : Bool) (m : Module) (mid : String) :
    StepSeq ((runModuleTr dry m).2.filterMap (eventOfAction mid)) := by
  cases dry
  case true =>
    rw [runModuleTr, runStepsAux_dry]
    exact StepSeq_tracesFrom true m.steps.length mid m.steps 0
  case false =>
    rcases firstFailSplit m.steps with hok | ⟨pre, f, post, e, hsp, hpre, hf, he⟩
    · rw [runModuleTr, runStepsAux_nofail _ _ _ _ _ hok]
      exact StepSeq_tracesFrom false m.steps.length mid m.steps 0
    · rw [runModuleTr, hsp, runStepsAux_fail _ _ _ _ _ _ _ _ hpre hf he]
      simp only [List.filterMap_append]
      refine StepSeq.append (StepSeq_tracesFrom false _ mid pre 0) ?_
      have := StepSeq_stepTrace_append false (pre ++ f :: post).length f (0 + pre.length)
        mid [] StepSeq.nil
      simpa using this

/-- The lifecycle events one resolved module id contributes. -/
def modEvents (r : Registry) (dry : Bool) (id : String) : List Event :=
  (modTrace r dry id).filterMap (eventOfAction id)

theorem StepSeq_modEvents (r : Registry) (dry : Bool) (id : String) :
    StepSeq (modEvents r dry id) := by
  unfold modEvents modTrace
  rcases hget : r.get id with _ | m
  · exact StepSeq.nil
  · exact StepSeq_runModule dry m id

theorem delivered_append (t1 t2 : List CAct) :
    delivered (t1 ++ t2) = delivered t1 ++ delivered t2 := by
  simp [delivered, List.filterMap_append]

theorem delivered_cons_true (e : Event) (l : List CAct) :
    delivered (CAct.sendAct e true :: l) = e :: delivered l := by
  simp [delivered]

theorem delivered_cons_false (e : Event) (l : List CAct) :
    delivered (CAct.sendAct e false :: l) = delivered l := by
  simp [delivered]

theorem delivered_cons_run (a : Action) (l : List CAct) :
    delivered (CAct.runAct a :: l) = delivered l := by
  simp [delivered]

theorem delivered_nil : delivered [] = [] := rfl

theorem deliveredAt_none (k : Nat) : deliveredAt none k = true := rfl

/-- Without cancellation the weave delivers exactly the hook events, in
trace order. -/
theorem weave_delivered_none (mid : String) :
    ∀ (tr : List Action) (k : Nat),
      delivered ((weave mid none tr k).1) = tr.filterMap (eventOfAction mid) := by
  intro tr
  induction tr with
  | nil => intro k; simp [weave, delivered]
  | cons a rest ih =>
    intro k
    rcases hev : eventOfAction mid a with _ | e
    · simp only [weave, hev, delivered_cons_run, List.filterMap_cons]
      exact ih k
    · simp only [weave, hev, deliveredAt_none, delivered_cons_true, List.filterMap_cons]
      rw [ih (k + 1)]

theorem cbridgeLoop_delivered_ok (dry : Bool) (r : Registry) (hwf : r.WF) :
    ∀ (l : List String) (results : List ModuleResult) (k : Nat),
      (∀ id ∈ l, (r.get id).isSome) →
      (∀ id ∈ l, (modRun r dry id).err = none) →
      delivered (cbridgeLoop dry r none l results k) =
        (l.map (fun id => Event.moduleStart id :: modEvents r dry id)).join ++
          [Event.allDone (results ++ l.map (modRun r dry))] := by
  intro l
  induction l with
  | nil => intro results k _ _; simp [cbridgeLoop, delivered, deliveredAt]
  | cons id rest ih =>
    intro results k hreg hok
    rcases hget : r.get id with _ | m
    · exact absurd (hreg id (List.mem_cons_self _ _)) (by simp [hget])
    · have hmid : m.id = id := get_id_eq r hwf id m hget
      have herr : (runModuleTr dry m).1.err = none := by
        have := hok id (List.mem_cons_self _ _)
        simpa [modRun, hget] using this
      have hrm : modRun r dry id = (runModuleTr dry m).1 := by simp [modRun, hget]
      have hstep : cbridgeLoop dry r none (id :: rest) results k =
          CAct.sendAct (Event.moduleStart m.id) true ::
            ((weave m.id none (runModuleTr dry m).2 (k + 1)).1 ++
              cbridgeLoop dry r none rest (results ++ [(runModuleTr dry m).1])
                (weave m.id none (runModuleTr dry m).2 (k + 1)).2) := by
        simp [cbridgeLoop, hget, deliveredAt, herr]
      rw [hstep, delivered_cons_true, delivered_append, weave_delivered_none,
        ih (results ++ [(runModuleTr dry m).1]) _
          (fun x hx => hreg x (List.mem_cons_of_mem _ hx))
          (fun x hx => hok x (List.mem_cons_of_mem _ hx))]
      simp [modEvents, modTrace, hget, hmid, hrm]

theorem cbridgeLoop_delivered_fail (dry : Bool) (r : Registry) (hwf : r.WF) :
    ∀ (pre : List String) (fid : String) (rest : List String)
      (results : List ModuleResult) (k : Nat),
      (∀ id ∈ pre, (r.get id).isSome) → (r.get fid).isSome →
      (∀ id ∈ pre, (modRun r dry id).err = none) →
      (modRun r dry fid).err.isSome →
      delivered (cbridgeLoop dry r none (pre ++ fid :: rest) results k) =
        ((pre ++ [fid]).map (fun id => Event.moduleStart id :: modEvents r dry id)).join ++
          [Event.allDone (results ++ (pre ++ [fid]).map (modRun r dry))] := by
  intro pre
  induction pre with
  | nil =>
    intro fid rest results k _ hfreg hpre hferr
    rcases hget : r.get fid with _ | m
    · exact absurd hfreg (by simp [hget])
    · have hmid : m.id = fid := get_id_eq r hwf fid m hget
      have hrm : modRun r dry fid = (runModuleTr dry m).1 := by simp [modRun, hget]
      have herr : (runModuleTr dry m).1.err.isSome = true := by
        rw [← hrm]; exact hferr
      have hstep : cbridgeLoop dry r none (fid :: rest) results k =
          CAct.sendAct (Event.moduleStart m.id) true ::
            ((weave m.id none (runModuleTr dry m).2 (k + 1)).1 ++
              [CAct.sendAct (Event.allDone (results ++ [(runModuleTr dry m).1])) true]) := by
        simp [cbridgeLoop, hget, deliveredAt, herr]
      rw [List.nil_append, hstep, delivered_cons_true, delivered_append,
        weave_delivered_none]
      simp [delivered, modEvents, modTrace, hget, hmid, hrm]
  | cons id pre2 ih =>
    intro fid rest results k hreg hfreg hpre hferr
    rcases hget : r.get id with _ | m
    · exact absurd (hreg id (List.mem_cons_self _ _)) (by simp [hget])
    · have hmid : m.id = id := get_id_eq r hwf id m hget
      have herr : (runModuleTr dry m).1.err = none := by
        have := hpre id (List.mem_cons_self _ _)
        simpa [modRun, hget] using this
      have hrm : modRun r dry id = (runModuleTr dry m).1 := by simp [modRun, hget]
      have hstep : cbridgeLoop dry r none (id :: (pre2 ++ fid :: rest)) results k =
          CAct.sendAct (Event.moduleStart m.id) true ::
            ((weave m.id none (runModuleTr dry m).2 (k + 1)).1 ++
              cbridgeLoop dry r none (pre2 ++ fid :: rest)
                (results ++ [(runModuleTr dry m).1])
                (weave m.id none (runModuleTr dry m).2 (k + 1)).2) := by
        simp [cbridgeLoop, hget, deliveredAt, herr]
      rw [List.cons_append, hstep, delivered_cons_true, delivered_append,
        weave_delivered_none,
        ih fid rest (results ++ [(runModuleTr dry m).1]) _
          (fun x hx => hreg x (List.mem_cons_of_mem _ hx)) hfreg
          (fun x hx => hpre x (List.mem_cons_of_mem _ hx)) hferr]
      simp [modEvents, modTrace, hget, hmid, hrm]

/-- C2: For every uncancelled Bridge run, the delivered event sequence is:
a lone RunError when dependency resolution fails before any module ran;
otherwise, for each executed module in resolved order (all of them, or the
prefix up to and including the first failing one) one ModuleStart followed
by that module's step events — each processed step contributing a StepStart
immediately followed by exactly one matching StepDone (carrying the skipped
flag) or StepError — and finally exactly one terminal AllDone carrying all
ModuleResults produced so far. -/
theorem bridge_event_order (dry : Bool) (r : Registry) (ids : List String)
    (hwf : r.WF) :
    (∀ e, r.resolveDeps ids = Except.error e →
      bridgeEvents dry r ids = [Event.runError e]) ∧
    (∀ sorted, r.resolveDeps ids = Except.ok sorted →
      ∃ ran : List String,
        bridgeEvents dry r ids =
          (ran.map (fun id => Event.moduleStart id :: modEvents r dry id)).join ++
            [Event.allDone (ran.map (modRun r dry))] ∧
        (∀ id ∈ ran, StepSeq (modEvents r dry id)) ∧
        ((ran = sorted ∧ ∀ id ∈ ran, (modRun r dry id).err = none) ∨
         ∃ pre fid rest, sorted = pre ++ fid :: rest ∧ ran = pre ++ [fid] ∧
           (∀ id ∈ pre, (modRun r dry id).err = none) ∧
           (modRun r dry fid).err.isSome)) := by
  constructor
  · intro e he
    simp [bridgeEvents, cbridge, he, delivered, deliveredAt]
  · intro sorted hok
    have hreg : ∀ id ∈ sorted, (r.get id).isSome := fun id hid =>
      (resolveDeps_ok_props r ids sorted hwf hok).2.2.1 id hid
    rcases firstTrueSplit (fun id => (modRun r dry id).err.isSome) sorted with
      hall | ⟨pre, fid, rest, hsp, hpre, hf⟩
    · refine ⟨sorted, ?_, fun id _ => StepSeq_modEvents r dry id, Or.inl ⟨rfl, ?_⟩⟩
      · simp only [bridgeEvents, cbridge, hok]
        rw [cbridgeLoop_delivered_ok dry r hwf sorted [] 0 hreg
          (fun id hid => Option.not_isSome_iff_eq_none.mp (by simp [hall id hid]))]
        simp
      · intro id hid
        exact Option.not_isSome_iff_eq_none.mp (by simp [hall id hid])
    · have hpre2 : ∀ id ∈ pre, (modRun r dry id).err = none := fun id hid =>
        Option.not_isSome_iff_eq_none.mp (by simp [hpre id hid])
      refine ⟨pre ++ [fid], ?_, fun id _ => StepSeq_modEvents r dry id,
        Or.inr ⟨pre, fid, rest, hsp, rfl, hpre2, hf⟩⟩
      simp only [bridgeEvents, cbridge, hok, hsp]
      rw [cbridgeLoop_delivered_fail dry r hwf pre fid rest [] 0
        (fun x hx => hreg x (by rw [hsp]; exact List.mem_append_left _ hx))
        (hreg fid (by rw [hsp]; exact List.mem_append_right _ (List.mem_cons_self _ _)))
        hpre2 hf]
      simp

/-- The spec's concrete Bridge scenario: one module "A" with two steps, the
first pre-satisfied (its check returns true) and the second not. -/
def regA : Registry :=
  Registry.empty.register
    { id := "A", dependencies := [],
      steps := [{ name := "ready", hasCheck := true, check := true,
                  hasDryRun := false, runErr := none },
                { name := "install", hasCheck := true, check := false,
                  hasDryRun := false, runErr := none }] }

/-- Witness for the Bridge event order on the spec's scenario: module "A",
first step pre-satisfied, second executed, ending in AllDone. -/
theorem bridge_event_order_witness :
    (∃ ran : List String,
        bridgeEvents false regA ["A"] =
          (ran.map (fun id => Event.moduleStart id :: modEvents regA false id)).join ++
            [Event.allDone (ran.map (modRun regA false))] ∧
        (∀ id ∈ ran, StepSeq (modEvents regA false id)) ∧
        ((ran = ["A"] ∧ ∀ id ∈ ran, (modRun regA false id).err = none) ∨
         ∃ pre fid rest, ["A"] = pre ++ fid :: rest ∧ ran = pre ++ [fid] ∧
           (∀ id ∈ pre, (modRun regA false id).err = none) ∧
           (modRun regA false fid).err.isSome)) ∧
    bridgeEvents false regA ["A"] =
      [Event.moduleStart "A",
       Event.stepStart "A" "ready" 0 2,
       Event.stepDone "A" "ready" 0 2 true,
       Event.stepStart "A" "install" 1 2,
       Event.stepDone "A" "install" 1 2 false,
       Event.allDone [{ moduleID := "A", completed := 1, skipped := 1, total := 2,
                        failedStep := "", err := none }]] :=
  ⟨(bridge_event_order false regA ["A"] (by decide)).2 ["A"] (by decide), by decide⟩

/-! ### C3: Cancellation -/

/-- Hook events are step-level events only, never ModuleStart. -/
theorem eventOfAction_ne_moduleStart (mid2 : String) (a : Action) (e : Event)
    (hev : eventOfAction mid2 a = some e) :
    ∀ mid, e ≠ Event.moduleStart mid := by
  intro mid
  cases a with
  | preHook n i t => simp [eventOfAction] at hev; simp [← hev]
  | checkEval n i v => simp [eventOfAction] at hev
  | dryRunCall n i => simp [eventOfAction] at hev
  | applyCall n i => simp [eventOfAction] at hev
  | postHook n i t sk err =>
    cases err <;> simp [eventOfAction] at hev <;> simp [← hev]

/-- The weave of a module's runner trace contains no ModuleStart send. -/
theorem weave_no_moduleStart (mid2 : String) (c : Option Nat) :
    ∀ (tr : List Action) (k : Nat) (mid : String) (b : Bool),
      CAct.sendAct (Event.moduleStart mid) b ∉ (weave mid2 c tr k).1 := by
  intro tr
  induction tr with
  | nil => intro k mid b; simp [weave]
  | cons a rest ih =>
    intro k mid b
    rcases hev : eventOfAction mid2 a with _ | e
    · simp only [weave, hev, List.mem_cons]
      rintro (h | h)
      · cases h
      · exact ih k mid b h
    · simp only [weave, hev, List.mem_cons]
      rintro (h | h)
      · exact eventOfAction_ne_moduleStart mid2 a e hev mid
          (by injection h with h1 h2; exact h1.symm) 
      · exact ih (k + 1) mid b h

/-- The module loop always emits at least one send attempt. -/
theorem cbridgeLoop_ne_nil (dry : Bool) (r : Registry) (c : Option Nat)
    (l : List String) (results : List ModuleResult) (k : Nat) :
    cbridgeLoop dry r c l results k ≠ [] := by
  cases l with
  | nil => simp [cbridgeLoop]
  | cons id rest =>
    rcases hget : r.get id with _ | m
    · simp [cbridgeLoop, hget]
    · rcases hok : deliveredAt c k with _ | _
      · simp [cbridgeLoop, hget, hok]
      · rcases herr : (runModuleTr dry m).1.err.isSome with _ | _ <;>
          simp [cbridgeLoop, hget, hok, herr]

/-- Bridge.run returns immediately when the ModuleStart send fails: a
failed ModuleStart send can only be the trace's final element. -/
theorem cbridgeLoop_no_moduleStart_fail_before_end (dry : Bool) (r : Registry)
    (c : Option Nat) :
    ∀ (l : List String) (results : List ModuleResult) (k : Nat) (mid : String),
      CAct.sendAct (Event.moduleStart mid) false ∉
        (cbridgeLoop dry r c l results k).dropLast := by
  intro l
  induction l with
  | nil => intro results k mid; simp [cbridgeLoop]
  | cons id rest ih =>
    intro results k mid
    rcases hget : r.get id with _ | m
    · simp [cbridgeLoop, hget]
    · rcases hok : deliveredAt c k with _ | _
      · simp [cbridgeLoop, hget, hok]
      · rcases herr : (runModuleTr dry m).1.err.isSome with _ | _
        · simp only [cbridgeLoop, hget, hok, herr, Bool.false_eq_true, if_false,
            if_true]
          rw [List.dropLast_append_of_ne_nil _ (cbridgeLoop_ne_nil dry r c rest _ _)]
          simp only [List.mem_append, List.mem_cons]
          rintro ((h | h) | h)
          · cases h
          · exact weave_no_moduleStart m.id c _ _ mid false h
          · exact ih _ _ mid h
        · simp only [cbridgeLoop, hget, hok, herr, if_true]
          rw [List.dropLast_append_of_ne_nil _ (by simp)]
          simp only [List.dropLast_single, List.append_nil, List.mem_cons]
          rintro (h | h)
          · cases h
          · exact weave_no_moduleStart m.id c _ _ mid false h

/-- Once the send counter reaches the cancel point, the weave delivers
nothing and never decreases the counter. -/
theorem weave_cancel_ge (mid : String) (n : Nat) :
    ∀ (tr : List Action) (k : Nat), n ≤ k →
      delivered (weave mid (some n) tr k).1 = [] ∧
      k ≤ (weave mid (some n) tr k).2 := by
  intro tr
  induction tr with
  | nil => intro k _; simp [weave, delivered]
  | cons a rest ih =>
    intro k hk
    rcases hev : eventOfAction mid a with _ | e
    · have := ih k hk
      simp only [weave, hev, delivered_cons_run]
      exact this
    · have hsend : deliveredAt (some n) k = false := by
        simp [deliveredAt]; omega
      have := ih (k + 1) (by omega)
      simp only [weave, hev, hsend, delivered_cons_false]
      exact ⟨this.1, by omega⟩

/-- Before the cancel point, the weave delivers at most `n - k` events and
each delivery consumes one counter tick. -/
theorem weave_cancel_le (mid : String) (n : Nat) :
    ∀ (tr : List Action) (k : Nat), k ≤ n →
      (delivered (weave mid (some n) tr k).1).length + k ≤ n ∧
      (delivered (weave mid (some n) tr k).1).length + k ≤
        (weave mid (some n) tr k).2 := by
  intro tr
  induction tr with
  | nil => intro k hk; simp [weave, delivered]; omega
  | cons a rest ih =>
    intro k hk
    rcases hev : eventOfAction mid a with _ | e
    · have := ih k hk
      simp only [weave, hev, delivered_cons_run]
      exact this
    · by_cases hlt : k < n
      · have hsend : deliveredAt (some n) k = true := by
          simp [deliveredAt]; omega
        have := ih (k + 1) (by omega)
        simp only [weave, hev, hsend, delivered_cons_true, List.length_cons]
        exact ⟨by omega, by omega⟩
      · have hkn : n ≤ k := by omega
        have hsend : deliveredAt (some n) k = false := by
          simp [deliveredAt]; omega
        have := weave_cancel_ge mid n rest (k + 1) (by omega)
        simp only [weave, hev, hsend, delivered_cons_false, this.1]
        simp
        omega

/-- Once the send counter reaches the cancel point, the module loop
delivers nothing: the ModuleStart send fails and the worker returns. -/
theorem cbridgeLoop_cancel_ge (dry : Bool) (r : Registry) (n : Nat)
    (l : List String) (results : List ModuleResult) (k : Nat) (hk : n ≤ k) :
    delivered (cbridgeLoop dry r (some n) l results k) = [] := by
  have hsend : deliveredAt (some n) k = false := by
    simp [deliveredAt]; omega
  cases l with
  | nil => simp [cbridgeLoop, hsend, delivered]
  | cons id rest =>
    rcases hget : r.get id with _ | m
    · simp [cbridgeLoop, hget, hsend, delivered]
    · simp [cbridgeLoop, hget, hsend, delivered]

/-- The module loop delivers at most `n - k` events under cancellation at
send attempt `n`. -/
theorem cbridgeLoop_cancel_le (dry : Bool) (r : Registry) (n : Nat) :
    ∀ (l : List String) (results : List ModuleResult) (k : Nat), k ≤ n →
      (delivered (cbridgeLoop dry r (some n) l results k)).length + k ≤ n := by
  intro l
  induction l with
  | nil =>
    intro results k hk
    rcases hsend : deliveredAt (some n) k with _ | _ <;>
      simp only [cbridgeLoop, hsend, delivered_cons_false, delivered_cons_true,
        delivered] <;> simp [deliveredAt] at hsend <;> simp <;> omega
  | cons id rest ih =>
    intro results k hk
    rcases hget : r.get id with _ | m
    · rcases hsend : deliveredAt (some n) k with _ | _ <;>
        simp only [cbridgeLoop, hget, delivered_cons_false, delivered_cons_true,
          hsend] <;> simp [deliveredAt] at hsend <;> simp [delivered] <;> omega
    · rcases hsend : deliveredAt (some n) k with _ | _
      · simp only [cbridgeLoop, hget, hsend, Bool.false_eq_true, if_false,
          delivered_cons_false]
        simp [delivered]
        omega
      · have hlt : k < n := by simpa [deliveredAt] using hsend
        have hw := weave_cancel_le m.id n (runModuleTr dry m).2 (k + 1) (by omega)
        rcases herr : (runModuleTr dry m).1.err.isSome with _ | _
        · simp only [cbridgeLoop, hget, hsend, if_true, herr, Bool.false_eq_true,
            if_false, delivered_cons_true, delivered_append, List.length_cons,
            List.length_append]
          by_cases hw2 : (weave m.id (some n) (runModuleTr dry m).2 (k + 1)).2 ≤ n
          · have hihr := ih (results ++ [(runModuleTr dry m).1])
              (weave m.id (some n) (runModuleTr dry m).2 (k + 1)).2 hw2
            omega
          · have hge := cbridgeLoop_cancel_ge dry r n rest
              (results ++ [(runModuleTr dry m).1])
              (weave m.id (some n) (runModuleTr dry m).2 (k + 1)).2 (by omega)
            rw [hge]
            simp
            omega
        · simp only [cbridgeLoop, hget, hsend, if_true, herr, delivered_cons_true,
            delivered_append, List.length_cons, List.length_append]
          rcases hlast : deliveredAt (some n)
              (weave m.id (some n) (runModuleTr dry m).2 (k + 1)).2 with _ | _
          · simp only [hlast, delivered_cons_false, delivered_nil, List.length_nil]
            omega
          · have hlt2 : (weave m.id (some n) (runModuleTr dry m).2 (k + 1)).2 < n := by
              simpa [deliveredAt] using hlast
            simp only [hlast, delivered_cons_true, delivered_nil, List.length_cons,
              List.length_nil]
            omega

/-- A registry with one module of two plain run steps, for observing what
cancellation stops. -/
def regTwo : Registry :=
  Registry.empty.register
    { id := "m", dependencies := [],
      steps := [{ name := "s1", hasCheck := false, check := false,
                  hasDryRun := false, runErr := none },
                { name := "s2", hasCheck := false, check := false,
                  hasDryRun := false, runErr := none }] }

/-- C3 refuted as stated: when cancellation is observed from the third
send attempt on (position 3 of the worker trace is a failed StepDone
delivery), the second step's apply is still invoked afterwards (position 5
of the trace): Bridge.run only checks the ModuleStart send result, and
RunModule never consults the context between steps, so steps of the module
already running keep executing after cancellation. -/
theorem bridge_cancel_cex :
    (cbridge false regTwo ["m"] (some 2)).get? 3 =
        some (CAct.sendAct (Event.stepDone "m" "s1" 0 2 false) false) ∧
      (cbridge false regTwo ["m"] (some 2)).get? 5 =
        some (CAct.runAct (Action.applyCall "s2" 1)) := by decide

/-- C3 (amended): with cancellation observed from send attempt `n` on, at
most `n` events are ever delivered; no failed ModuleStart send is followed
by anything (the worker returns immediately, so no further module is
started); and the worker's trace being finite, every NextEvent call past
the delivered events yields the end-of-stream sentinel rather than
blocking. Steps of the module already running may still execute. -/
theorem bridge_cancel (dry : Bool) (r : Registry) (ids : List String) (n : Nat) :
    (delivered (cbridge dry r ids (some n))).length ≤ n ∧
    (∀ mid, CAct.sendAct (Event.moduleStart mid) false ∉
        (cbridge dry r ids (some n)).dropLast) ∧
    (∀ k, n ≤ k → nextEventAt dry r ids (some n) k = none) := by
  have hlen : (delivered (cbridge dry r ids (some n))).length ≤ n := by
    rcases hres : r.resolveDeps ids with e | sorted
    · simp only [cbridge, hres]
      rcases h0 : deliveredAt (some n) 0 with _ | _
      · simp [h0, delivered_cons_false, delivered_nil]
      · have h1 : 0 < n := by simpa [deliveredAt] using h0
        simp only [h0, delivered_cons_true, delivered_nil, List.length_cons,
          List.length_nil]
        omega
    · have h := cbridgeLoop_cancel_le dry r n sorted [] 0 (Nat.zero_le n)
      simp only [cbridge, hres]
      omega
  refine ⟨hlen, ?_, ?_⟩
  · intro mid
    rcases hres : r.resolveDeps ids with e | sorted
    · simp [cbridge, hres]
    · simp only [cbridge, hres]
      exact cbridgeLoop_no_moduleStart_fail_before_end dry r (some n) sorted [] 0 mid
  · intro k hk
    unfold nextEventAt
    exact List.get?_eq_none.mpr (by omega)

/-- Witness for the amended cancellation property on the two-step module
with the cancel point at the third send attempt: exactly two events are
delivered and the third NextEvent call yields the sentinel. -/
theorem bridge_cancel_witness :
    ((delivered (cbridge false regTwo ["m"] (some 2))).length ≤ 2 ∧
     (∀ mid, CAct.sendAct (Event.moduleStart mid) false ∉
        (cbridge false regTwo ["m"] (some 2)).dropLast) ∧
     (∀ k, 2 ≤ k → nextEventAt false regTwo ["m"] (some 2) k = none)) ∧
    delivered (cbridge false regTwo ["m"] (some 2)) =
      [Event.moduleStart "m", Event.stepStart "m" "s1" 0 2] ∧
    nextEventAt false regTwo ["m"] (some 2) 2 = none :=
  ⟨bridge_cancel false regTwo ["m"] 2, by decide, by decide⟩

end Shhh
